import Mathlib

namespace PWC

/-!
Verification of the paperswithcode-rebuilt repository.

The development shallowly embeds the repository's date utilities
(`src/utils/dateUtils.ts`), the browser-console mock in
`src/utils/testDates.js`, the Express server's `getPapers` query
(`server.js`), the `LeaderboardTable` React component's evaluation
processing, and — modelled from the written specification, because the
Python build scripts themselves are not in the source tree — the bulk
ETL load pipeline (interner, hierarchy builder, relational writer,
orchestrator).

JavaScript/SQL strings are modelled as `List Char` (named `Str` below),
because `String`'s primitives do not reduce in the kernel.
-/

set_option maxRecDepth 2048

/-- JavaScript / SQL strings, modelled as lists of characters. -/
abbrev Str := List Char

/-- Byte-wise (code-point) comparison of one character against another,
as SQLite's memcmp-based text collation compares single bytes. -/
def chLe (a b : Char) : Bool := a.val ≤ b.val

/-- Lexicographic string comparison by code points: this is SQLite's
default BINARY collation (`<=` on TEXT), which agrees with byte order on
the ASCII date strings stored in the `papers.date` column. -/
def strLeB : Str → Str → Bool
  | [], _ => true
  | _ :: _, [] => false
  | a :: as, b :: bs => if a = b then strLeB as bs else chLe a b

/-- Numeric value of a decimal digit character. -/
def digitVal (c : Char) : Nat := c.toNat - 48

/-- Value of a string of decimal digits, most significant first. -/
def digitsVal (l : Str) : Nat := l.foldl (fun a c => a * 10 + digitVal c) 0

/-- Parse a non-empty all-digit string to a number, as the numeric
fields of an ISO date string are read. -/
def decDigits? (l : Str) : Option Nat :=
  if l ≠ [] ∧ l.all Char.isDigit then some (digitsVal l) else none

/-- Split a string at each dash, as `YYYY-MM-DD` is decomposed. -/
def splitOnDash (l : Str) : List Str :=
  match l with
  | [] => [[]]
  | c :: rest =>
    let r := splitOnDash rest
    if c = '-' then [] :: r
    else
      match r with
      | [] => [[c]]
      | h :: t => (c :: h) :: t

/-- Gregorian leap-year rule used by ECMAScript `Date`. -/
def isLeapYear (y : Nat) : Bool :=
  (y % 4 == 0 && y % 100 != 0) || y % 400 == 0

/-- Days in a month, used to validate the day field of an ISO date. -/
def daysInMonth (y m : Nat) : Nat :=
  if m = 2 then (if isLeapYear y then 29 else 28)
  else if m = 4 ∨ m = 6 ∨ m = 9 ∨ m = 11 then 30 else 31

/-- A calendar date at UTC midnight, the value produced by
`new Date('YYYY-MM-DD')` for the date-only strings stored in the data.
Two such values have equal `getTime()` iff they are component-equal. -/
structure PDate where
  year : Nat
  month : Nat
  day : Nat
  deriving DecidableEq

/-- The `getTime()` ordering key of a date-only `Date` value: for dates with
month ≤ 12 and day ≤ 31 (all values this development constructs) the
code below is strictly monotone in the timestamp. -/
def PDate.code (d : PDate) : Nat := d.year * 10000 + d.month * 100 + d.day

/-- Comparison `a.getTime() < b.getTime()` on date-only `Date` values. -/
def PDate.timeLt (a b : PDate) : Bool := a.code < b.code

/-- The value of `new Date(s)` on a date-only string, per the ECMAScript date-time
string format: exactly `YYYY-MM-DD` with four/two/two digits, month in
1..12 and day within the month, else an Invalid Date (`none` here, whose
`getTime()` is NaN).  Engine-specific lenient fallback parsing of
non-ISO strings is outside the model: every other string is Invalid. -/
def jsParseISO (s : Str) : Option PDate :=
  match splitOnDash s with
  | [ys, ms, ds] =>
    if ys.length = 4 ∧ ms.length = 2 ∧ ds.length = 2 then
      match decDigits? ys, decDigits? ms, decDigits? ds with
      | some y, some m, some d =>
        if 1 ≤ m ∧ m ≤ 12 ∧ 1 ≤ d ∧ d ≤ daysInMonth y m then
          some ⟨y, m, d⟩
        else none
      | _, _, _ => none
    else none
  | _ => none

/-- The fallback date `new Date('1900-01-01')` used by `dateUtils`. -/
def fallbackDate : PDate := ⟨1900, 1, 1⟩

/-- Function `parseDate` from `src/utils/dateUtils.ts`: a missing or empty date
string (JS `!dateString`), an unparsable string (NaN `getTime()`), or a
parsed year above `currentYear + 1` yields the fallback date
`1900-01-01`; any other parsed date is returned unchanged. -/
def parseDate (currentYear : Nat) (dateString : Option Str) : PDate :=
  match dateString with
  | none => fallbackDate
  | some s =>
    if s = [] then fallbackDate
    else
      match jsParseISO s with
      | none => fallbackDate
      | some d => if currentYear + 1 < d.year then fallbackDate else d

/-- Decimal rendering of a natural number (digit characters, most
significant first), via a fuel argument so it computes in the kernel. -/
def natDigitsAux : Nat → Nat → Str
  | 0, _ => []
  | _ + 1, 0 => []
  | fuel + 1, n => natDigitsAux fuel (n / 10) ++ [Char.ofNat (48 + n % 10)]

/-- Decimal rendering of a natural number. -/
def natToStr (n : Nat) : Str :=
  if n = 0 then ['0'] else natDigitsAux (n + 1) n

/-- Rendering `Date.prototype.toLocaleDateString()` in the en-US locale used by
the app: `M/D/YYYY`.  Only the fact that this string differs from
`"N/A"` matters to the claims. -/
def toLocaleDateStr (d : PDate) : Str :=
  natToStr d.month ++ '/' :: natToStr d.day ++ '/' :: natToStr d.year

/-- Function `formatDate` from `src/utils/dateUtils.ts`: render `parseDate`'s
result, or `"N/A"` when that result's `getTime()` equals the fallback
date's (for date-only values, component equality). -/
def formatDate (currentYear : Nat) (dateString : Option Str) : Str :=
  if parseDate currentYear dateString = fallbackDate then "N/A".data
  else toLocaleDateStr (parseDate currentYear dateString)

/-- Function `getYear` from `src/utils/dateUtils.ts`. -/
def getYear (currentYear : Nat) (dateString : Option Str) : Nat :=
  (parseDate currentYear dateString).year

/-- Function `isValidDate` exported by `src/utils/dateUtils.ts`: false for a
missing/empty string, an unparsable string, or a parsed year above
`currentYear + 1`; true otherwise. -/
def isValidDate (currentYear : Nat) (dateString : Option Str) : Bool :=
  match dateString with
  | none => false
  | some s =>
    if s = [] then false
    else
      match jsParseISO s with
      | none => false
      | some d => decide (d.year ≤ currentYear + 1)

/-- The mock `isValidDate` of `src/utils/testDates.js`: whether
`parseDate`'s result has `getTime()` strictly after `1900-01-01`'s. -/
def isValidDateMock (currentYear : Nat) (dateString : Option Str) : Bool :=
  fallbackDate.timeLt (parseDate currentYear dateString)

/-! ### The server's paper listing (`getPapers` in `server.js`) -/

/-- A row of the `papers` table, restricted to the columns the
`getPapers` query filters or returns that matter here. -/
structure PaperRow where
  id : Nat
  paper_url : Str
  title : Str
  abstract : Str
  date : Option Str
  deriving DecidableEq

/-- The SQL date conditions of `getPapers`:
`date IS NOT NULL AND date != '' AND date != '2222-12-22' AND
date >= '1900-01-01' AND date <= '2030-12-31'`, with SQLite's BINARY
string comparison. -/
def servedDateOk (d : Str) : Bool :=
  !(d == ([] : Str)) && !(d == "2222-12-22".data) &&
    strLeB "1900-01-01".data d && strLeB d "2030-12-31".data

/-- The full `WHERE` date clause applied to a row (`NULL` fails). -/
def servedFilter (r : PaperRow) : Bool :=
  match r.date with
  | none => false
  | some d => servedDateOk d

/-- ASCII lower-casing, as SQLite's `LIKE` is case-insensitive for
ASCII. -/
def toLowerStr (s : Str) : Str := s.map Char.toLower

/-- Whether the first string occurs at the head of the second. -/
def leadMatch : Str → Str → Bool
  | [], _ => true
  | _ :: _, [] => false
  | a :: as, b :: bs => a == b && leadMatch as bs

/-- Whether the first string occurs anywhere inside the second. -/
def hasSubstr (pat : Str) : Str → Bool
  | [] => pat == ([] : Str)
  | c :: rest => leadMatch pat (c :: rest) || hasSubstr pat rest

/-- JavaScript `String.prototype.trim()`. -/
def trimStr (s : Str) : Str :=
  ((s.dropWhile Char.isWhitespace).reverse.dropWhile
    Char.isWhitespace).reverse

/-- SQL `column LIKE '%term%'` (ASCII case-insensitive containment). -/
def likeContains (hay pat : Str) : Bool :=
  hasSubstr (toLowerStr pat) (toLowerStr hay)

/-- The `title LIKE ? OR abstract LIKE ?` search clause. -/
def matchesSearch (term : Str) (r : PaperRow) : Bool :=
  likeContains r.title term || likeContains r.abstract term

/-- Clause `ORDER BY p.date DESC, p.id DESC` as a comparator: `a` may precede
`b`.  (`getD []` is irrelevant on served rows, whose dates are all
present.) -/
def paperOrdB (a b : PaperRow) : Bool :=
  if a.date.getD [] = b.date.getD [] then b.id ≤ a.id
  else strLeB (b.date.getD []) (a.date.getD [])

/-- Function `getPapers(page, limit, searchTerm)` from `server.js`: filter rows
by the date clause and (when the trimmed search term is non-empty) the
title/abstract `LIKE` clause, order by date and id descending, then
apply `LIMIT ? OFFSET ?` with offset `(page - 1) * limit`. -/
def getPapers (rows : List PaperRow) (page limit : Nat)
    (searchTerm : Str) : List PaperRow :=
  let filtered := rows.filter (fun r =>
    servedFilter r &&
      (trimStr searchTerm == ([] : Str) ||
        matchesSearch (trimStr searchTerm) r))
  let sorted := List.insertionSort (fun a b => paperOrdB a b = true)
    filtered
  (sorted.drop ((page - 1) * limit)).take limit

/-- The spec's stored-date validity predicate, stated from the spec's
words ("null or a syntactically valid calendar date within
[1900-01-01, current_year+1]") for comparison with the server's SQL
filter. -/
def specValidStoredDate (currentYear : Nat) (d : Str) : Bool :=
  match jsParseISO d with
  | none => false
  | some p => decide (1900 ≤ p.year ∧ p.year ≤ currentYear + 1)

/-- An example stored row whose date string passes the server's string
range check without being a valid calendar date. -/
def paperRowBadCal : PaperRow :=
  ⟨1, "u1".data, "t1".data, "a1".data, some "1999-99-99".data⟩

/-- An example stored row whose date is a valid calendar date but lies
beyond `currentYear + 1` (for current year 2026) while still passing
the fixed `<= '2030-12-31'` bound. -/
def paperRowFarFuture : PaperRow :=
  ⟨2, "u2".data, "t2".data, "a2".data, some "2029-06-01".data⟩

/-! ### `LeaderboardTable` evaluation processing -/

/-- An exact JavaScript number as produced by `parseFloat` on the
decimal score strings of the data: the value `mant / 10 ^ shift`.
(IEEE-754 rounding and the infinities are outside the model; the
repository's scores are short decimal strings, which this represents
exactly.) -/
structure JsNum where
  mant : Int
  shift : Nat
  deriving DecidableEq

/-- The rational value of a `JsNum`. -/
def JsNum.toRat (a : JsNum) : ℚ := (a.mant : ℚ) / 10 ^ a.shift

/-- Numeric `<=` on `JsNum`, by cross multiplication (kernel-friendly,
unlike `ℚ`'s operations). -/
def jsLeB (a b : JsNum) : Bool :=
  decide (a.mant * (10 : Int) ^ b.shift ≤ b.mant * (10 : Int) ^ a.shift)

/-- A metric value as found in an evaluation's `metrics` object:
a number, a string, or JSON `null`. -/
inductive MetricVal
  | num (x : JsNum)
  | str (s : Str)
  | null
  deriving DecidableEq

/-- An evaluation row as consumed by `LeaderboardTable`: the fields the
processing reads.  `metrics` is a JS object, modelled as an association
list in `Object.keys` order; a key missing from the list is
`undefined`. -/
structure Eval where
  id : Nat
  date : Option Str
  model_name : Str
  paper_title : Str
  metrics : List (Str × MetricVal)
  deriving DecidableEq

/-- Expression `Object.keys(evaluations[0]?.metrics || \x7b\x7d)[0]`: the name of the
primary metric, if any. -/
def primaryMetric (evals : List Eval) : Option Str :=
  match evals with
  | [] => none
  | e :: _ => (e.metrics.map Prod.fst).head?

/-- Expression `score.replace` of the percent sign: JavaScript `replace` with a string
pattern removes only the first occurrence. -/
def replaceFirstPct : Str → Str
  | [] => []
  | c :: r => if c = '%' then r else c :: replaceFirstPct r

/-- The exponent suffix of a JS numeric literal: applied only when at
least one exponent digit follows, otherwise the mantissa stands. -/
def expAdjust (n : JsNum) (rest : Str) : JsNum :=
  let signed : Bool × Str :=
    match rest with
    | '-' :: r => (true, r)
    | '+' :: r => (false, r)
    | _ => (false, rest)
  let ed := signed.2.takeWhile Char.isDigit
  if ed = [] then n
  else if signed.1 then ⟨n.mant, n.shift + digitsVal ed⟩
  else ⟨n.mant * (10 : Int) ^ digitsVal ed, n.shift⟩

/-- JavaScript `parseFloat`: skip leading whitespace, read an optional
sign, decimal digits with an optional fraction and an optional
exponent, ignoring any trailing garbage; `none` models `NaN` (no
numeric prefix at all).  (`Infinity` literals do not occur in the
score data and are outside the model.) -/
def jsParseFloat (s : Str) : Option JsNum :=
  let t := s.dropWhile Char.isWhitespace
  let signed : Int × Str :=
    match t with
    | '-' :: r => (-1, r)
    | '+' :: r => (1, r)
    | _ => (1, t)
  let ip := signed.2.takeWhile Char.isDigit
  let r1 := signed.2.dropWhile Char.isDigit
  let fpr : Str × Str :=
    match r1 with
    | '.' :: r => (r.takeWhile Char.isDigit, r.dropWhile Char.isDigit)
    | _ => ([], r1)
  if ip = [] ∧ fpr.1 = [] then none
  else
    let base : JsNum :=
      ⟨signed.1 * (digitsVal (ip ++ fpr.1) : Int), fpr.1.length⟩
    match fpr.2 with
    | 'e' :: rest => some (expAdjust base rest)
    | 'E' :: rest => some (expAdjust base rest)
    | _ => some base

/-- The numeric score of one evaluation under the primary metric,
following the component: `undefined`, `null` and `''` scores yield no
score; string scores go through `parseFloat` after `'%'` removal (NaN
yields no score); numeric scores are used as they are. -/
def evalNumericScore (primary : Str) (e : Eval) : Option JsNum :=
  match e.metrics.lookup primary with
  | none => none
  | some MetricVal.null => none
  | some (MetricVal.str s) =>
      if s = [] then none else jsParseFloat (replaceFirstPct s)
  | some (MetricVal.num x) => some x

/-- One row of `processedEvaluations`: the evaluation together with the
fields the component attaches.  `numericScore = none` models the field
being absent (`undefined`), `cumulativeBest = none` models the initial
`-Infinity`. -/
structure ProcEval where
  ev : Eval
  isNewRecord : Bool
  cumulativeBest : Option JsNum
  numericScore : Option JsNum
  deriving DecidableEq

/-- One entry of the `cumulativeBest` record-progression list. -/
structure CumBest where
  year : Nat
  bestScore : JsNum
  model : Str
  paper : Str
  date : Str
  isNewRecord : Bool
  deriving DecidableEq

/-- The evaluations sorted by `parseDate(date).getTime()` ascending,
as `sortedEvaluations` computes them. -/
def sortedEvaluations (currentYear : Nat) (evals : List Eval) :
    List Eval :=
  List.insertionSort
    (fun a b => (parseDate currentYear a.date).code ≤
      (parseDate currentYear b.date).code) evals

/-- The body of `sortedEvaluations.map(...)` in `LeaderboardTable`:
one evaluation processed against the running best score, yielding the
updated state `(currentBest, cumulativeBest)` and the produced row. -/
def processOne (currentYear : Nat) (primary : Str)
    (st : Option JsNum × List CumBest) (e : Eval) :
    (Option JsNum × List CumBest) × ProcEval :=
  match evalNumericScore primary e with
  | none => (st, ⟨e, false, st.1, none⟩)
  | some s =>
    let year := getYear currentYear e.date
    let isNew : Bool :=
      match st.1 with
      | none => true
      | some c => !(jsLeB s c)
    if isNew = true ∧ 1900 < year then
      ((some s,
        st.2 ++ [⟨year, s, e.model_name, e.paper_title,
          e.date.getD [], true⟩]),
       ⟨e, isNew, some s, some s⟩)
    else
      (st, ⟨e, isNew, st.1, some s⟩)

/-- A `map` that threads state left to right, as a JS `map` whose
callback mutates captured variables does. -/
def mapAccum {σ α β : Type} (f : σ → α → σ × β) :
    σ → List α → σ × List β
  | s, [] => (s, [])
  | s, a :: as =>
    let r := f s a
    let rest := mapAccum f r.1 as
    (rest.1, r.2 :: rest.2)

/-- The `useMemo` body of `LeaderboardTable`: with no primary metric
the raw evaluations come back unchanged (their attached fields all
`undefined`) and no record progression is built; otherwise the
evaluations are date-sorted and processed in order. -/
def leaderboardMemo (currentYear : Nat) (evals : List Eval) :
    List ProcEval × List CumBest :=
  match primaryMetric evals with
  | none => (evals.map (fun e => ⟨e, false, none, none⟩), [])
  | some primary =>
    let r := mapAccum (processOne currentYear primary) (none, [])
      (sortedEvaluations currentYear evals)
    (r.2, r.1.2)

/-- The list `processedEvaluations` of `LeaderboardTable`. -/
def processedEvaluations (currentYear : Nat) (evals : List Eval) :
    List ProcEval :=
  (leaderboardMemo currentYear evals).1

/-- The leaderboard comparator
`(b.numericScore || 0) - (a.numericScore || 0)`, as the relation
"`a` may precede `b`".  (On the filtered rows `numericScore` is always
present, and `some 0` and the `|| 0` default coincide.) -/
def scoreRelP (a b : ProcEval) : Prop :=
  jsLeB (b.numericScore.getD ⟨0, 0⟩) (a.numericScore.getD ⟨0, 0⟩) = true

instance : DecidableRel scoreRelP := fun a b => by
  unfold scoreRelP; infer_instance

instance : IsTotal ProcEval scoreRelP :=
  ⟨fun a b => by
    unfold scoreRelP jsLeB
    rw [decide_eq_true_iff, decide_eq_true_iff]
    exact le_total _ _⟩

instance : IsTrans ProcEval scoreRelP :=
  ⟨fun a b c hab hbc => by
    unfold scoreRelP jsLeB at hab hbc ⊢
    rw [decide_eq_true_iff] at hab hbc ⊢
    have key : ∀ x y : JsNum,
        x.mant * (10 : Int) ^ y.shift ≤ y.mant * (10 : Int) ^ x.shift ↔
        (x.mant : ℚ) / 10 ^ x.shift ≤ (y.mant : ℚ) / 10 ^ y.shift := by
      intro x y
      rw [div_le_div_iff₀ (by positivity) (by positivity)]
      constructor <;> intro h <;> exact_mod_cast h
    rw [key] at hab hbc ⊢
    exact le_trans hbc hab⟩

/-- The list `sortedForLeaderboard` of `LeaderboardTable`: keep the processed
rows that carry a numeric score (`numericScore !== undefined &&
!isNaN(...)`; NaN is never stored in the model) and sort them by score
descending. -/
def sortedForLeaderboard (currentYear : Nat) (evals : List Eval) :
    List ProcEval :=
  List.insertionSort scoreRelP
    ((processedEvaluations currentYear evals).filter
      (fun p => p.numericScore.isSome))

/-- The rendered leaderboard rows: `sortedForLeaderboard` enumerated,
each row displayed with rank `#(index + 1)`. -/
def rankedRows (currentYear : Nat) (evals : List Eval) :
    List (Nat × ProcEval) :=
  (sortedForLeaderboard currentYear evals).enum.map
    (fun p => (p.1 + 1, p.2))

/-! ### The bulk ETL load pipeline, modelled from the specification

The Python build scripts (`build_database.py`,
`rebuild_methods_database.py`) are not part of the source tree — only
their documentation is — so the loader below is modelled from the
specification's contracts: the Entity Interner (§4.2), the Hierarchy
Builder (§4.3), the Relational Writer's upsert rules (§4.4) and the
Load Orchestrator (§4.5). -/

/-- Modelled from the spec: an entity table, one row per entity,
holding the natural key (URL or name) and the surrogate integer id.
The Python writer that maintains these tables is missing from the
source tree. -/
abbrev Table := List (Str × Nat)

/-- Modelled from the spec: look up the surrogate id bound to a natural
key, as the interner's in-memory dictionary does. -/
def tlookup (t : Table) (k : Str) : Option Nat :=
  match t.find? (fun r => decide (r.1 = k)) with
  | some r => some r.2
  | none => none

/-- Modelled from the spec (§4.2): intern a natural key — reuse the
existing surrogate id when the key is present, otherwise allocate the
next id and append one new row.  Returns the table, the id, and the
next free id. -/
def intern (t : Table) (k : Str) (next : Nat) : Table × Nat × Nat :=
  match tlookup t k with
  | some i => (t, i, next)
  | none => (t ++ [(k, next)], next, next + 1)

/-- Modelled from the spec (§4.4): insert a junction pair only if the
`(left id, right id)` pair is absent. -/
def addJunc2 (j : List (Nat × Nat)) (p : Nat × Nat) : List (Nat × Nat) :=
  if p ∈ j then j else j ++ [p]

/-- Modelled from the spec (§4.4, Paper↔Author ordered): insert a
`(paper id, author id, author_order)` row only if the id pair is
absent. -/
def addJunc3 (j : List (Nat × Nat × Nat)) (pid aid ord : Nat) :
    List (Nat × Nat × Nat) :=
  if j.any (fun r => decide (r.1 = pid ∧ r.2.1 = aid)) then j
  else j ++ [(pid, aid, ord)]

/-- Modelled from the spec (§4.3): the curated classification table
from known category names to areas, with the designated default area
`General` for names not in the table.  The Python script holding the
full table is missing from the source tree; a representative curated
subset stands for it. -/
def classifyArea (c : Str) : Str :=
  if c = "Convolutional Neural Networks".data ∨
      c = "Vision Transformers".data ∨
      c = "Image Generation Models".data then "Computer Vision".data
  else if c = "Transformers".data ∨ c = "Language Models".data ∨
      c = "Word Embeddings".data then
    "Natural Language Processing".data
  else if c = "Policy Gradient Methods".data ∨
      c = "Q-Learning Networks".data then
    "Reinforcement Learning".data
  else "General".data

/-- Modelled from the spec: a normalized method record — natural key
(`none` when the source record lacks its URL, which rejects the
record), name, and the free-text category labels. -/
structure MethodRecord where
  url : Option Str
  name : Str
  categories : List Str
  deriving DecidableEq

/-- Modelled from the spec: a normalized paper record with its author
names (ordered), task names and referenced method URLs. -/
structure PaperRecord where
  url : Option Str
  title : Str
  authors : List Str
  tasks : List Str
  methods : List Str
  deriving DecidableEq

/-- Modelled from the spec: a normalized dataset record. -/
structure DatasetRecord where
  url : Option Str
  name : Str
  deriving DecidableEq

/-- Modelled from the spec (§3, §6): the relational store — entity
tables keyed by natural key, the category table carrying its area
foreign key, the four junction tables, and the next free surrogate id.
`methodCategories` rows are `(name, id, area id)`. -/
structure DB where
  papers : Table
  authors : Table
  tasks : Table
  methods : Table
  methodAreas : Table
  methodCategories : List (Str × Nat × Nat)
  datasets : Table
  paperAuthors : List (Nat × Nat × Nat)
  paperTasks : List (Nat × Nat)
  paperMethods : List (Nat × Nat)
  methodCategoriesRel : List (Nat × Nat)
  nextId : Nat
  deriving DecidableEq

/-- The empty store a first load run starts from. -/
def emptyDB : DB := ⟨[], [], [], [], [], [], [], [], [], [], [], 0⟩

/-- Modelled from the spec (§4.3): bind one category label of a method.
If a category row with this name exists it is reused — its area is not
touched (first-write-wins) — otherwise a new category row is created
with the area the classification table assigns; either way the
`(method, category)` link is inserted if absent. -/
def addCategory (db : DB) (mid : Nat) (c : Str) : DB :=
  match db.methodCategories.find? (fun r => decide (r.1 = c)) with
  | some r =>
    { db with methodCategoriesRel :=
        addJunc2 db.methodCategoriesRel (mid, r.2.1) }
  | none =>
    let ia := intern db.methodAreas (classifyArea c) db.nextId
    { db with
        methodAreas := ia.1,
        methodCategories :=
          db.methodCategories ++ [(c, ia.2.2, ia.2.1)],
        methodCategoriesRel :=
          addJunc2 db.methodCategoriesRel (mid, ia.2.2),
        nextId := ia.2.2 + 1 }

/-- Modelled from the spec (§4.1–§4.3): load one method record.  A
record without its natural key is rejected (counted separately) and
writes nothing; otherwise the method is upserted and each category
label is bound. -/
def processMethod (db : DB) (r : MethodRecord) : DB :=
  match r.url with
  | none => db
  | some u =>
    let im := intern db.methods u db.nextId
    let db1 := { db with methods := im.1, nextId := im.2.2 }
    r.categories.foldl (fun d c => addCategory d (im.2.1) c) db1

/-- Modelled from the spec: intern one author reference of a paper and
insert the ordered junction row. -/
def authStep (pid : Nat) (d : DB) (oa : Nat × Str) : DB :=
  let ia := intern d.authors oa.2 d.nextId
  { d with authors := ia.1, nextId := ia.2.2,
           paperAuthors := addJunc3 d.paperAuthors pid ia.2.1 oa.1 }

/-- Modelled from the spec: intern one task reference of a paper and
insert the junction row. -/
def taskStep (pid : Nat) (d : DB) (t : Str) : DB :=
  let it := intern d.tasks t d.nextId
  { d with tasks := it.1, nextId := it.2.2,
           paperTasks := addJunc2 d.paperTasks (pid, it.2.1) }

/-- Modelled from the spec: intern one method reference of a paper and
insert the junction row. -/
def methStep (pid : Nat) (d : DB) (mu : Str) : DB :=
  let im := intern d.methods mu d.nextId
  { d with methods := im.1, nextId := im.2.2,
           paperMethods := addJunc2 d.paperMethods (pid, im.2.1) }

/-- Modelled from the spec (§4.1, §4.2, §4.5): load one paper record —
reject it without its URL, otherwise upsert the paper and lazily
intern every referenced author (with its order), task and method,
writing each junction row against ids that exist at write time. -/
def processPaper (db : DB) (r : PaperRecord) : DB :=
  match r.url with
  | none => db
  | some u =>
    let ip := intern db.papers u db.nextId
    let db1 := { db with papers := ip.1, nextId := ip.2.2 }
    let db2 := r.authors.enum.foldl (authStep ip.2.1) db1
    let db3 := r.tasks.foldl (taskStep ip.2.1) db2
    r.methods.foldl (methStep ip.2.1) db3

/-- Modelled from the spec: load one dataset record. -/
def processDataset (db : DB) (r : DatasetRecord) : DB :=
  match r.url with
  | none => db
  | some u =>
    let idt := intern db.datasets u db.nextId
    { db with datasets := idt.1, nextId := idt.2.2 }

/-- Modelled from the spec (§6): one set of source files. -/
structure Corpus where
  methodRecords : List MethodRecord
  paperRecords : List PaperRecord
  datasetRecords : List DatasetRecord
  deriving DecidableEq

/-- Modelled from the spec (§4.5): one orchestrated load run —
dependency-free entities (datasets, then methods with their category
hierarchy) before the papers whose junction rows reference them. -/
def loadRun (db : DB) (c : Corpus) : DB :=
  c.paperRecords.foldl processPaper
    (c.methodRecords.foldl processMethod
      (c.datasetRecords.foldl processDataset db))

/-- Modelled from the spec: a sequence of load runs against the same
store. -/
def loadRuns (db : DB) (cs : List Corpus) : DB := cs.foldl loadRun db

/-- Modelled from the spec (§4.1, §7): rejected-record count of a run —
records missing their natural key, counted but not loaded. -/
def rejectedCount (c : Corpus) : Nat :=
  (c.methodRecords.filter (fun r => r.url.isNone)).length +
    (c.paperRecords.filter (fun r => r.url.isNone)).length +
    (c.datasetRecords.filter (fun r => r.url.isNone)).length

/-- The per-table row counts that a run's final summary reports. -/
def rowCounts (db : DB) : List Nat :=
  [db.papers.length, db.authors.length, db.tasks.length,
   db.methods.length, db.methodAreas.length,
   db.methodCategories.length, db.datasets.length,
   db.paperAuthors.length, db.paperTasks.length,
   db.paperMethods.length, db.methodCategoriesRel.length]

/-! ### ETL infrastructure lemmas -/

/-- One list grows into another by appending rows at the end — how
every table of the store evolves during a load. -/
def Grows {α : Type} (t t' : List α) : Prop := ∃ e, t' = t ++ e

/-- The store-extension relation: every table only grows during a
load.  (The id counter is tracked separately.) -/
def Extends (d d' : DB) : Prop :=
  Grows d.papers d'.papers ∧ Grows d.authors d'.authors ∧
  Grows d.tasks d'.tasks ∧ Grows d.methods d'.methods ∧
  Grows d.methodAreas d'.methodAreas ∧
  Grows d.methodCategories d'.methodCategories ∧
  Grows d.datasets d'.datasets ∧
  Grows d.paperAuthors d'.paperAuthors ∧
  Grows d.paperTasks d'.paperTasks ∧
  Grows d.paperMethods d'.paperMethods ∧
  Grows d.methodCategoriesRel d'.methodCategoriesRel

/-- The uniqueness invariant of §3: no two rows of any entity table
share a natural key. -/
def UniqueKeys (db : DB) : Prop :=
  (db.papers.map Prod.fst).Nodup ∧ (db.authors.map Prod.fst).Nodup ∧
  (db.tasks.map Prod.fst).Nodup ∧ (db.methods.map Prod.fst).Nodup ∧
  (db.methodAreas.map Prod.fst).Nodup ∧
  (db.methodCategories.map (fun r => r.1)).Nodup ∧
  (db.datasets.map Prod.fst).Nodup

/-! ### Referential integrity (C5) -/

/-- Some row of the entity table carries this surrogate id. -/
def HasId (t : Table) (i : Nat) : Prop := ∃ r ∈ t, r.2 = i

/-- Some category row carries this surrogate id. -/
def HasCatId (l : List (Str × Nat × Nat)) (i : Nat) : Prop :=
  ∃ r ∈ l, r.2.1 = i

/-- The referential-integrity invariant of §3: every junction row
references ids that exist in the respective entity tables. -/
def RefIntegrity (db : DB) : Prop :=
  (∀ r ∈ db.paperAuthors,
    HasId db.papers r.1 ∧ HasId db.authors r.2.1) ∧
  (∀ p ∈ db.paperTasks, HasId db.papers p.1 ∧ HasId db.tasks p.2) ∧
  (∀ p ∈ db.paperMethods,
    HasId db.papers p.1 ∧ HasId db.methods p.2) ∧
  (∀ p ∈ db.methodCategoriesRel,
    HasId db.methods p.1 ∧ HasCatId db.methodCategories p.2)

/-! ### First-write-wins category binding (C2) -/

/-- The category row currently bound to a name, as the hierarchy
builder looks it up. -/
def catFind (db : DB) (c : Str) : Option (Str × Nat × Nat) :=
  db.methodCategories.find? (fun r => decide (r.1 = c))

/-- How many category rows carry a name. -/
def catCount (db : DB) (c : Str) : Nat :=
  (db.methodCategories.filter (fun r => decide (r.1 = c))).length

/-! ### Idempotent re-run (C3) -/

/-- A method id is linked to the category row bound to a name. -/
def CatBound (mid : Nat) (c : Str) (d : DB) : Prop :=
  ∃ row, catFind d c = some row ∧
    (mid, row.2.1) ∈ d.methodCategoriesRel

/-- Everything a method record writes is already present. -/
def MLoaded (r : MethodRecord) (d : DB) : Prop :=
  match r.url with
  | none => True
  | some u => ∃ mid, tlookup d.methods u = some mid ∧
      ∀ c ∈ r.categories, CatBound mid c d

/-- One ordered author reference of a paper is already present. -/
def ALoaded (pid : Nat) (oa : Nat × Str) (d : DB) : Prop :=
  ∃ aid, tlookup d.authors oa.2 = some aid ∧
    ∃ q ∈ d.paperAuthors, q.1 = pid ∧ q.2.1 = aid

/-- One task reference of a paper is already present. -/
def TLoaded (pid : Nat) (t : Str) (d : DB) : Prop :=
  ∃ tid, tlookup d.tasks t = some tid ∧ (pid, tid) ∈ d.paperTasks

/-- One method reference of a paper is already present. -/
def MuLoaded (pid : Nat) (mu : Str) (d : DB) : Prop :=
  ∃ mid, tlookup d.methods mu = some mid ∧ (pid, mid) ∈ d.paperMethods

/-- Everything a paper record writes is already present. -/
def PLoaded (r : PaperRecord) (d : DB) : Prop :=
  match r.url with
  | none => True
  | some u => ∃ pid, tlookup d.papers u = some pid ∧
      (∀ oa ∈ r.authors.enum, ALoaded pid oa d) ∧
      (∀ t ∈ r.tasks, TLoaded pid t d) ∧
      (∀ mu ∈ r.methods, MuLoaded pid mu d)

/-- Everything a dataset record writes is already present. -/
def DLoaded (r : DatasetRecord) (d : DB) : Prop :=
  match r.url with
  | none => True
  | some u => ∃ did, tlookup d.datasets u = some did

/-- Every record of a corpus is fully present in the store. -/
def CorpusLoaded (c : Corpus) (d : DB) : Prop :=
  (∀ r ∈ c.methodRecords, MLoaded r d) ∧
  (∀ r ∈ c.paperRecords, PLoaded r d) ∧
  (∀ r ∈ c.datasetRecords, DLoaded r d)

/-- A first corpus: one method record binding category `Transformers`
(classified to the Natural Language Processing area). -/
def corpusA : Corpus :=
  ⟨[⟨some "mA".data, "MA".data, ["Transformers".data]⟩], [], []⟩

/-- A later corpus: another method record that also references
`Transformers` (and a second category of its own). -/
def corpusB : Corpus :=
  ⟨[⟨some "mB".data, "MB".data,
     ["Transformers".data, "Word Embeddings".data]⟩], [], []⟩

/-- A corpus exercising every table: a method with categories, a paper
with authors, tasks and method references, and a dataset. -/
def corpusC : Corpus :=
  ⟨[⟨some "mC".data, "MC".data, ["Transformers".data]⟩],
   [⟨some "pC".data, "PC".data, ["Ann A".data, "Bob B".data],
     ["Image Classification".data], ["mC".data]⟩],
   [⟨some "dC".data, "DC".data⟩]⟩

/-! ### Theorems -/

theorem parseDate_eval (currentYear : Nat) {s : Str} {d : PDate}
    (hs : ¬ s = []) (h : jsParseISO s = some d) :
    parseDate currentYear (some s) =
      if currentYear + 1 < d.year then fallbackDate else d := by
  simp only [parseDate]
  rw [if_neg hs, h]

theorem parseDate_eval_none (currentYear : Nat) {s : Str}
    (h : jsParseISO s = none) :
    parseDate currentYear (some s) = fallbackDate := by
  simp only [parseDate]
  by_cases hs : s = []
  · rw [if_pos hs]
  · rw [if_neg hs, h]

theorem isValidDate_eval (currentYear : Nat) {s : Str} {d : PDate}
    (hs : ¬ s = []) (h : jsParseISO s = some d) :
    isValidDate currentYear (some s) =
      decide (d.year ≤ currentYear + 1) := by
  simp only [isValidDate]
  rw [if_neg hs, h]

theorem isValidDate_eval_none (currentYear : Nat) {s : Str}
    (h : jsParseISO s = none) :
    isValidDate currentYear (some s) = false := by
  simp only [isValidDate]
  by_cases hs : s = []
  · rw [if_pos hs]
  · rw [if_neg hs, h]

theorem jsParseISO_month_bounds {s : Str} {d : PDate}
    (h : jsParseISO s = some d) : 1 ≤ d.month ∧ d.month ≤ 12 := by
  unfold jsParseISO at h
  split at h
  · split at h
    · split at h
      · split at h
        · rename_i hb
          cases h
          exact ⟨hb.1, hb.2.1⟩
        · exact Option.noConfusion h
      · exact Option.noConfusion h
    · exact Option.noConfusion h
  · exact Option.noConfusion h

theorem parseDate_month_bounds (currentYear : Nat) (ds : Option Str) :
    1 ≤ (parseDate currentYear ds).month ∧
      (parseDate currentYear ds).month ≤ 12 := by
  unfold parseDate
  split
  · exact ⟨by decide, by decide⟩
  split
  · exact ⟨by decide, by decide⟩
  split
  · exact ⟨by decide, by decide⟩
  split
  · exact ⟨by decide, by decide⟩
  · rename_i hp _
    exact jsParseISO_month_bounds hp

theorem toLocaleDateStr_ne_na (p : PDate) (h1 : 1 ≤ p.month)
    (hm : p.month ≤ 12) : toLocaleDateStr p ≠ "N/A".data := by
  obtain ⟨y, m, d⟩ := p
  simp only at h1 hm
  interval_cases m <;>
    · intro h
      simpa [toLocaleDateStr, natToStr, natDigitsAux] using
        congrArg List.head? h

/-- C1 (amended): `parseDate` returns the fallback date `1900-01-01`
exactly for a missing or empty date string, an unparsable string, or a
parsed year above `currentYear + 1`; any other parsed date — including
one before 1900 — is returned unchanged.  (The pre-1900 filtering the
claim attributes to `parseDate` actually lives in the server's SQL
query, not in `parseDate`.) -/
theorem c1_parseDate_normalization (currentYear : Nat) :
    parseDate currentYear none = fallbackDate ∧
    parseDate currentYear (some []) = fallbackDate ∧
    (∀ s : Str, jsParseISO s = none →
      parseDate currentYear (some s) = fallbackDate) ∧
    (∀ (s : Str) (d : PDate), jsParseISO s = some d →
      currentYear + 1 < d.year →
      parseDate currentYear (some s) = fallbackDate) ∧
    (∀ (s : Str) (d : PDate), jsParseISO s = some d →
      d.year ≤ currentYear + 1 →
      parseDate currentYear (some s) = d) := by
  refine ⟨rfl, rfl, ?_, ?_, ?_⟩
  · intro s h
    by_cases hs : s = [] <;> simp [parseDate, hs, h]
  · intro s d h hy
    by_cases hs : s = []
    · subst hs
      exact Option.noConfusion
        ((show jsParseISO ([] : Str) = none from rfl).symm.trans h)
    · simp [parseDate, hs, h, hy]
  · intro s d h hy
    by_cases hs : s = []
    · subst hs
      exact Option.noConfusion
        ((show jsParseISO ([] : Str) = none from rfl).symm.trans h)
    · simp [parseDate, hs, h, Nat.not_lt.mpr hy]

/-- C1 counterexample: the pre-1900 date string `1850-06-12` parses and
is returned unchanged by `parseDate` rather than being normalized to
the fallback date, refuting the claim that every date before
1900-01-01 round-trips to the null/invalid fallback. -/
theorem c1_pre1900_not_fallback :
    parseDate 2026 (some "1850-06-12".data) = ⟨1850, 6, 12⟩ ∧
    parseDate 2026 (some "1850-06-12".data) ≠ fallbackDate := by decide

/-- Witness for C1 (amended), at concrete inputs: `2019-06-12` parses
and round-trips unchanged, and the far-future sentinel `2222-12-22` is
normalized to the fallback date (current year 2026). -/
theorem c1_parseDate_normalization_witness :
    jsParseISO "2019-06-12".data = some ⟨2019, 6, 12⟩ ∧
    parseDate 2026 (some "2019-06-12".data) = ⟨2019, 6, 12⟩ ∧
    jsParseISO "2222-12-22".data = some ⟨2222, 12, 22⟩ ∧
    parseDate 2026 (some "2222-12-22".data) = fallbackDate :=
  ⟨by decide,
   (c1_parseDate_normalization 2026).2.2.2.2 _ _ (by decide) (by decide),
   by decide,
   (c1_parseDate_normalization 2026).2.2.2.1 "2222-12-22".data
     ⟨2222, 12, 22⟩ (by decide) (by decide)⟩

/-- C9: `formatDate` renders `"N/A"` exactly for the inputs whose
`parseDate` result equals `1900-01-01`: every missing date, every
unparsable date, every date beyond `currentYear + 1` — and also the
genuinely valid input `1900-01-01` itself, which therefore displays as
`"N/A"` instead of as a formatted date. -/
theorem c9_formatDate_na (currentYear : Nat) :
    (∀ ds : Option Str,
      formatDate currentYear ds = "N/A".data ↔
        parseDate currentYear ds = fallbackDate) ∧
    formatDate currentYear none = "N/A".data ∧
    (∀ s : Str, jsParseISO s = none →
      formatDate currentYear (some s) = "N/A".data) ∧
    (∀ (s : Str) (d : PDate), jsParseISO s = some d →
      currentYear + 1 < d.year →
      formatDate currentYear (some s) = "N/A".data) ∧
    formatDate currentYear (some "1900-01-01".data) = "N/A".data := by
  have key : ∀ ds : Option Str,
      formatDate currentYear ds = "N/A".data ↔
        parseDate currentYear ds = fallbackDate := by
    intro ds
    unfold formatDate
    split
    · rename_i hf
      exact ⟨fun _ => hf, fun _ => rfl⟩
    · rename_i hf
      constructor
      · intro h
        obtain ⟨h1, h12⟩ := parseDate_month_bounds currentYear ds
        exact absurd h (toLocaleDateStr_ne_na _ h1 h12)
      · intro h
        exact absurd h hf
  refine ⟨key, ?_, ?_, ?_, ?_⟩
  · exact (key none).mpr rfl
  · intro s h
    exact (key (some s)).mpr (parseDate_eval_none currentYear h)
  · intro s d h hy
    refine (key (some s)).mpr ?_
    have hs : ¬ s = [] := fun hs => Option.noConfusion
      ((show jsParseISO ([] : Str) = none from rfl).symm.trans (hs ▸ h))
    rw [parseDate_eval currentYear hs h, if_pos hy]
  · refine (key _).mpr ?_
    by_cases hy : currentYear + 1 < 1900 <;>
      simp [parseDate, jsParseISO, splitOnDash, decDigits?, digitsVal,
        digitVal, daysInMonth, isLeapYear, fallbackDate, hy]

/-- Witness for C9, at concrete inputs: the unparsable string
`not-a-date` and the beyond-range string `2222-12-22` both display as
`"N/A"` (current year 2026). -/
theorem c9_formatDate_na_witness :
    formatDate 2026 (some "not-a-date".data) = "N/A".data ∧
    formatDate 2026 (some "2222-12-22".data) = "N/A".data :=
  ⟨(c9_formatDate_na 2026).2.2.1 _ (by decide),
   (c9_formatDate_na 2026).2.2.2.1 _ ⟨2222, 12, 22⟩ (by decide) (by decide)⟩

/-- C8 counterexample: on the input `1900-01-01` the exported
`isValidDate` of `dateUtils` returns `true` (the date parses and is not
beyond `currentYear + 1`) while the mock `isValidDate` of `testDates.js`
returns `false` (`parseDate`'s result is not strictly after the
fallback date), refuting the claim that the two functions agree on
every input and on `1900-01-01` in particular. -/
theorem c8_disagree_on_1900 :
    isValidDate 2026 (some "1900-01-01".data) = true ∧
    isValidDateMock 2026 (some "1900-01-01".data) = false := by decide

/-- C8 (amended): the mock `isValidDate` of `testDates.js` agrees with
the exported `isValidDate` of `dateUtils` on missing dates, unparsable
dates, dates beyond `currentYear + 1`, and parsable in-range dates
strictly after 1900-01-01 — but on `1900-01-01` itself and on every
parsable in-range date at or before it, the mock returns `false` while
the exported function returns `true`. -/
theorem c8_mock_vs_exported (currentYear : Nat) :
    isValidDateMock currentYear none = isValidDate currentYear none ∧
    (∀ s : Str, jsParseISO s = none →
      isValidDateMock currentYear (some s) =
        isValidDate currentYear (some s)) ∧
    (∀ (s : Str) (d : PDate), jsParseISO s = some d →
      currentYear + 1 < d.year →
      isValidDateMock currentYear (some s) = false ∧
      isValidDate currentYear (some s) = false) ∧
    (∀ (s : Str) (d : PDate), jsParseISO s = some d →
      d.year ≤ currentYear + 1 → fallbackDate.timeLt d = true →
      isValidDateMock currentYear (some s) = true ∧
      isValidDate currentYear (some s) = true) ∧
    (∀ (s : Str) (d : PDate), jsParseISO s = some d →
      d.year ≤ currentYear + 1 → fallbackDate.timeLt d = false →
      isValidDateMock currentYear (some s) = false ∧
      isValidDate currentYear (some s) = true) := by
  have hnil : ∀ s : Str, ∀ d : PDate, s = [] → jsParseISO s = some d →
      False := fun _ d hs h => Option.noConfusion
    ((show jsParseISO ([] : Str) = none from rfl).symm.trans (hs ▸ h))
  have hne : ∀ s : Str, ∀ d : PDate, jsParseISO s = some d → ¬ s = [] :=
    fun s d h hs => hnil s d hs h
  refine ⟨?_, ?_, ?_, ?_, ?_⟩
  · rw [isValidDateMock,
      show parseDate currentYear none = fallbackDate from rfl,
      show isValidDate currentYear none = false from rfl]
    decide
  · intro s h
    rw [isValidDate_eval_none currentYear h, isValidDateMock,
      parseDate_eval_none currentYear h]
    decide
  · intro s d h hy
    refine ⟨?_, ?_⟩
    · rw [isValidDateMock, parseDate_eval currentYear (hne s d h) h,
        if_pos hy]
      decide
    · rw [isValidDate_eval currentYear (hne s d h) h,
        decide_eq_false (Nat.not_le.mpr hy)]
  · intro s d h hy hlt
    refine ⟨?_, ?_⟩
    · rw [isValidDateMock, parseDate_eval currentYear (hne s d h) h,
        if_neg (Nat.not_lt.mpr hy), hlt]
    · rw [isValidDate_eval currentYear (hne s d h) h,
        decide_eq_true hy]
  · intro s d h hy hlt
    refine ⟨?_, ?_⟩
    · rw [isValidDateMock, parseDate_eval currentYear (hne s d h) h,
        if_neg (Nat.not_lt.mpr hy), hlt]
    · rw [isValidDate_eval currentYear (hne s d h) h,
        decide_eq_true hy]

/-- Witness for C8 (amended), at concrete inputs: the two functions
agree on the in-range date `2019-06-12` (both `true`), and disagree on
the pre-1900 date `1850-06-12` (mock `false`, exported `true`), with
current year 2026. -/
theorem c8_mock_vs_exported_witness :
    (isValidDateMock 2026 (some "2019-06-12".data) = true ∧
      isValidDate 2026 (some "2019-06-12".data) = true) ∧
    (isValidDateMock 2026 (some "1850-06-12".data) = false ∧
      isValidDate 2026 (some "1850-06-12".data) = true) :=
  ⟨(c8_mock_vs_exported 2026).2.2.2.1 "2019-06-12".data ⟨2019, 6, 12⟩
      (by decide) (by decide) (by decide),
   (c8_mock_vs_exported 2026).2.2.2.2 "1850-06-12".data ⟨1850, 6, 12⟩
      (by decide) (by decide) (by decide)⟩

/-- C6 counterexample: `getPapers` serves the row dated `1999-99-99`
(not a valid calendar date) and the row dated `2029-06-01` (beyond
`current_year + 1` = 2027), because the SQL filter is only a string
range check with the fixed upper bound `2030-12-31`; this refutes the
claim that every served paper has a valid calendar date within
[1900-01-01, current_year+1]. -/
theorem c6_serves_invalid_dates :
    paperRowBadCal ∈ getPapers [paperRowBadCal, paperRowFarFuture] 1 20 [] ∧
    paperRowFarFuture ∈
      getPapers [paperRowBadCal, paperRowFarFuture] 1 20 [] ∧
    specValidStoredDate 2026 "1999-99-99".data = false ∧
    specValidStoredDate 2026 "2029-06-01".data = false := by decide

/-- C6 (amended): every paper row returned by `getPapers` — for every
store, page, limit and search term — has a date that is non-null,
non-empty, distinct from the sentinel `2222-12-22`, and lies
lexicographically between `1900-01-01` and `2030-12-31`; the filter is
a fixed string-range check and guarantees neither calendar validity
nor the `current_year + 1` bound. -/
theorem c6_getPapers_served_dates (rows : List PaperRow)
    (page limit : Nat) (term : Str) (r : PaperRow)
    (hr : r ∈ getPapers rows page limit term) :
    ∃ d : Str, r.date = some d ∧ d ≠ [] ∧ d ≠ "2222-12-22".data ∧
      strLeB "1900-01-01".data d = true ∧
      strLeB d "2030-12-31".data = true := by
  unfold getPapers at hr
  have h1 := List.mem_of_mem_drop (List.mem_of_mem_take hr)
  have h2 : r ∈ rows.filter (fun r =>
      servedFilter r &&
        (trimStr term == ([] : Str) ||
          matchesSearch (trimStr term) r)) :=
    ((List.perm_insertionSort _ _).mem_iff).mp h1
  have h3 := (List.mem_filter.mp h2).2
  simp only [Bool.and_eq_true] at h3
  have h4 : servedFilter r = true := h3.1
  unfold servedFilter at h4
  match hd : r.date with
  | none => rw [hd] at h4; exact Bool.noConfusion h4
  | some d =>
    rw [hd] at h4
    unfold servedDateOk at h4
    simp only [Bool.and_eq_true, Bool.not_eq_true',
      beq_eq_false_iff_ne] at h4
    obtain ⟨⟨⟨hne, hsent⟩, hlo⟩, hhi⟩ := h4
    exact ⟨d, rfl, hne, hsent, hlo, hhi⟩

/-- Witness for C6 (amended): a row dated `2019-06-12` is served, and
the theorem recovers its date together with the string bounds. -/
theorem c6_getPapers_served_dates_witness :
    ∃ d : Str,
      (PaperRow.mk 3 "u3".data "t3".data "a3".data
        (some "2019-06-12".data)).date = some d ∧
      d ≠ [] ∧ d ≠ "2222-12-22".data ∧
      strLeB "1900-01-01".data d = true ∧
      strLeB d "2030-12-31".data = true :=
  c6_getPapers_served_dates
    [⟨3, "u3".data, "t3".data, "a3".data, some "2019-06-12".data⟩]
    1 20 []
    ⟨3, "u3".data, "t3".data, "a3".data, some "2019-06-12".data⟩
    (by decide)

theorem jsLeB_iff (a b : JsNum) :
    jsLeB a b = true ↔ a.toRat ≤ b.toRat := by
  unfold jsLeB JsNum.toRat
  rw [decide_eq_true_iff]
  rw [div_le_div_iff₀ (by positivity) (by positivity)]
  constructor <;> intro h <;> exact_mod_cast h

/-- C10: the rows `LeaderboardTable` displays are exactly the processed
evaluations that carry a numeric score (percentage strings parsed,
missing/empty/non-numeric scores excluded) — as a permutation and as a
membership equivalence — they appear in non-increasing order of that
score, and the rendered rank of the row at position `i` is `i + 1`. -/
theorem c10_leaderboard_rows (currentYear : Nat) (evals : List Eval) :
    List.Perm (sortedForLeaderboard currentYear evals)
      ((processedEvaluations currentYear evals).filter
        (fun p => p.numericScore.isSome)) ∧
    (∀ p : ProcEval, p ∈ sortedForLeaderboard currentYear evals ↔
      p ∈ processedEvaluations currentYear evals ∧
        p.numericScore.isSome = true) ∧
    List.Pairwise scoreRelP (sortedForLeaderboard currentYear evals) ∧
    (rankedRows currentYear evals).map Prod.snd =
      sortedForLeaderboard currentYear evals ∧
    (rankedRows currentYear evals).map Prod.fst =
      List.range' 1 (sortedForLeaderboard currentYear evals).length := by
  have hperm : List.Perm (sortedForLeaderboard currentYear evals)
      ((processedEvaluations currentYear evals).filter
        (fun p => p.numericScore.isSome)) :=
    List.perm_insertionSort scoreRelP _
  refine ⟨hperm, ?_, ?_, ?_, ?_⟩
  · intro p
    rw [hperm.mem_iff, List.mem_filter]
  · exact List.sorted_insertionSort scoreRelP _
  · rw [rankedRows, List.map_map]
    exact List.enum_map_snd _
  · rw [rankedRows, List.map_map]
    have h1 : (Prod.fst ∘ fun p : Nat × ProcEval => (p.1 + 1, p.2)) =
        (fun n => n + 1) ∘ Prod.fst := rfl
    rw [h1, ← List.map_map, List.enum_map_fst, List.range'_eq_map_range]
    exact List.map_congr_left (fun a _ => Nat.add_comm a 1)

theorem Grows.grefl {α : Type} (t : List α) : Grows t t :=
  ⟨[], (List.append_nil t).symm⟩

theorem Grows.gtrans {α : Type} {a b c : List α} (h1 : Grows a b)
    (h2 : Grows b c) : Grows a c := by
  obtain ⟨e1, rfl⟩ := h1
  obtain ⟨e2, rfl⟩ := h2
  exact ⟨e1 ++ e2, by rw [List.append_assoc]⟩

theorem Grows.mem {α : Type} {a b : List α} (h : Grows a b) {x : α}
    (hx : x ∈ a) : x ∈ b := by
  obtain ⟨e, rfl⟩ := h
  exact List.mem_append_left e hx

theorem find?_append_some {α : Type} {p : α → Bool} {l : List α}
    {r : α} (e : List α) (h : l.find? p = some r) :
    (l ++ e).find? p = some r := by
  induction l with
  | nil => simp at h
  | cons a as ih =>
    rw [List.cons_append]
    cases hpa : p a
    · rw [List.find?_cons_of_neg _ (by simp [hpa])] at h ⊢
      exact ih h
    · rw [List.find?_cons_of_pos _ hpa] at h ⊢
      exact h

theorem find?_append_none {α : Type} {p : α → Bool} {l : List α}
    {x : α} (h : l.find? p = none) (hx : p x = true) :
    (l ++ [x]).find? p = some x := by
  induction l with
  | nil => simp [List.find?, hx]
  | cons a as ih =>
    rw [List.cons_append]
    cases hpa : p a
    · rw [List.find?_cons_of_neg _ (by simp [hpa])] at h ⊢
      exact ih h
    · rw [List.find?_cons_of_pos _ hpa] at h
      exact Option.noConfusion h

theorem Grows.find? {α : Type} {a b : List α} (h : Grows a b)
    {p : α → Bool} {r : α} (hf : a.find? p = some r) :
    b.find? p = some r := by
  obtain ⟨e, rfl⟩ := h
  exact find?_append_some e hf

theorem Grows.tlookup {a b : Table} (h : Grows a b) {k : Str} {i : Nat}
    (hl : tlookup a k = some i) : tlookup b k = some i := by
  unfold PWC.tlookup at hl ⊢
  cases hf : a.find? (fun r => decide (r.1 = k)) with
  | none => rw [hf] at hl; exact Option.noConfusion hl
  | some r =>
    rw [hf] at hl
    rw [Grows.find? h hf]
    exact hl

theorem intern_grows (t : Table) (k : Str) (n : Nat) :
    Grows t (intern t k n).1 := by
  unfold intern
  cases h : tlookup t k
  · exact ⟨[(k, n)], Eq.refl _⟩
  · exact ⟨[], (List.append_nil t).symm⟩

theorem addJunc2_grows (j : List (Nat × Nat)) (p : Nat × Nat) :
    Grows j (addJunc2 j p) := by
  unfold addJunc2
  split
  · exact Grows.grefl j
  · exact ⟨[p], Eq.refl _⟩

theorem addJunc3_grows (j : List (Nat × Nat × Nat)) (pid aid ord : Nat) :
    Grows j (addJunc3 j pid aid ord) := by
  unfold addJunc3
  split
  · exact Grows.grefl j
  · exact ⟨[(pid, aid, ord)], Eq.refl _⟩

theorem Extends.erefl (d : DB) : Extends d d :=
  ⟨Grows.grefl _, Grows.grefl _, Grows.grefl _, Grows.grefl _, Grows.grefl _,
   Grows.grefl _, Grows.grefl _, Grows.grefl _, Grows.grefl _, Grows.grefl _,
   Grows.grefl _⟩

theorem Extends.etrans {a b c : DB} (h1 : Extends a b)
    (h2 : Extends b c) : Extends a c :=
  ⟨h1.1.gtrans h2.1, h1.2.1.gtrans h2.2.1, h1.2.2.1.gtrans h2.2.2.1,
   h1.2.2.2.1.gtrans h2.2.2.2.1, h1.2.2.2.2.1.gtrans h2.2.2.2.2.1,
   h1.2.2.2.2.2.1.gtrans h2.2.2.2.2.2.1,
   h1.2.2.2.2.2.2.1.gtrans h2.2.2.2.2.2.2.1,
   h1.2.2.2.2.2.2.2.1.gtrans h2.2.2.2.2.2.2.2.1,
   h1.2.2.2.2.2.2.2.2.1.gtrans h2.2.2.2.2.2.2.2.2.1,
   h1.2.2.2.2.2.2.2.2.2.1.gtrans h2.2.2.2.2.2.2.2.2.2.1,
   h1.2.2.2.2.2.2.2.2.2.2.gtrans h2.2.2.2.2.2.2.2.2.2.2⟩

theorem addCategory_extends (d : DB) (mid : Nat) (c : Str) :
    Extends d (addCategory d mid c) := by
  unfold addCategory
  split
  · exact ⟨Grows.grefl _, Grows.grefl _, Grows.grefl _, Grows.grefl _,
      Grows.grefl _, Grows.grefl _, Grows.grefl _, Grows.grefl _, Grows.grefl _,
      Grows.grefl _, addJunc2_grows _ _⟩
  · exact ⟨Grows.grefl _, Grows.grefl _, Grows.grefl _, Grows.grefl _,
      intern_grows _ _ _, ⟨_, Eq.refl _⟩, Grows.grefl _, Grows.grefl _,
      Grows.grefl _, Grows.grefl _, addJunc2_grows _ _⟩

theorem foldl_extends {α : Type} {f : DB → α → DB}
    (hf : ∀ d a, Extends d (f d a)) :
    ∀ (l : List α) (d : DB), Extends d (l.foldl f d) := by
  intro l
  induction l with
  | nil => exact fun d => Extends.erefl d
  | cons a as ih =>
    intro d
    exact (hf d a).etrans (ih (f d a))

theorem extends_methods_update (d : DB) (t : Table) (n : Nat)
    (h : Grows d.methods t) :
    Extends d { d with methods := t, nextId := n } :=
  ⟨Grows.grefl _, Grows.grefl _, Grows.grefl _, h, Grows.grefl _, Grows.grefl _,
   Grows.grefl _, Grows.grefl _, Grows.grefl _, Grows.grefl _, Grows.grefl _⟩

theorem extends_papers_update (d : DB) (t : Table) (n : Nat)
    (h : Grows d.papers t) :
    Extends d { d with papers := t, nextId := n } :=
  ⟨h, Grows.grefl _, Grows.grefl _, Grows.grefl _, Grows.grefl _, Grows.grefl _,
   Grows.grefl _, Grows.grefl _, Grows.grefl _, Grows.grefl _, Grows.grefl _⟩

theorem processMethod_extends (d : DB) (r : MethodRecord) :
    Extends d (processMethod d r) := by
  unfold processMethod
  cases hu : r.url with
  | none => exact Extends.erefl d
  | some u =>
    exact Extends.etrans
      (extends_methods_update d _ _ (intern_grows d.methods u d.nextId))
      (foldl_extends (fun d c => addCategory_extends d _ c) _ _)

theorem authStep_extends (pid : Nat) (d : DB) (oa : Nat × Str) :
    Extends d (authStep pid d oa) :=
  ⟨Grows.grefl _, intern_grows _ _ _, Grows.grefl _, Grows.grefl _,
   Grows.grefl _, Grows.grefl _, Grows.grefl _, addJunc3_grows _ _ _ _,
   Grows.grefl _, Grows.grefl _, Grows.grefl _⟩

theorem taskStep_extends (pid : Nat) (d : DB) (t : Str) :
    Extends d (taskStep pid d t) :=
  ⟨Grows.grefl _, Grows.grefl _, intern_grows _ _ _, Grows.grefl _,
   Grows.grefl _, Grows.grefl _, Grows.grefl _, Grows.grefl _,
   addJunc2_grows _ _, Grows.grefl _, Grows.grefl _⟩

theorem methStep_extends (pid : Nat) (d : DB) (mu : Str) :
    Extends d (methStep pid d mu) :=
  ⟨Grows.grefl _, Grows.grefl _, Grows.grefl _, intern_grows _ _ _,
   Grows.grefl _, Grows.grefl _, Grows.grefl _, Grows.grefl _, Grows.grefl _,
   addJunc2_grows _ _, Grows.grefl _⟩

theorem processPaper_extends (d : DB) (r : PaperRecord) :
    Extends d (processPaper d r) := by
  unfold processPaper
  cases hu : r.url with
  | none => exact Extends.erefl d
  | some u =>
    dsimp only
    refine Extends.etrans
      (extends_papers_update d (intern d.papers u d.nextId).1
        (intern d.papers u d.nextId).2.2
        (intern_grows d.papers u d.nextId)) ?_
    refine Extends.etrans
      (foldl_extends (authStep_extends (intern d.papers u d.nextId).2.1)
        r.authors.enum _) ?_
    refine Extends.etrans
      (foldl_extends (taskStep_extends (intern d.papers u d.nextId).2.1)
        r.tasks _) ?_
    exact foldl_extends (methStep_extends (intern d.papers u d.nextId).2.1)
      r.methods _

theorem processDataset_extends (d : DB) (r : DatasetRecord) :
    Extends d (processDataset d r) := by
  unfold processDataset
  cases hu : r.url with
  | none => exact Extends.erefl d
  | some u =>
    exact ⟨Grows.grefl _, Grows.grefl _, Grows.grefl _, Grows.grefl _,
      Grows.grefl _, Grows.grefl _, intern_grows _ _ _, Grows.grefl _,
      Grows.grefl _, Grows.grefl _, Grows.grefl _⟩

theorem loadRun_extends (d : DB) (c : Corpus) :
    Extends d (loadRun d c) := by
  unfold loadRun
  exact Extends.etrans
    (foldl_extends processDataset_extends c.datasetRecords d)
    (Extends.etrans
      (foldl_extends processMethod_extends c.methodRecords _)
      (foldl_extends processPaper_extends c.paperRecords _))

theorem loadRuns_extends (d : DB) (cs : List Corpus) :
    Extends d (loadRuns d cs) :=
  foldl_extends loadRun_extends cs d

/-- A generic fold-preservation principle for store invariants. -/
theorem foldl_preserve {α : Type} {P : DB → Prop} {f : DB → α → DB}
    (hf : ∀ d a, P d → P (f d a)) :
    ∀ (l : List α) (d : DB), P d → P (l.foldl f d) := by
  intro l
  induction l with
  | nil => exact fun d h => h
  | cons a as ih => exact fun d h => ih (f d a) (hf d a h)

/-! ### Natural-key uniqueness (C4) -/

theorem tlookup_none_not_mem {t : Table} {k : Str}
    (h : tlookup t k = none) : k ∉ t.map Prod.fst := by
  unfold tlookup at h
  cases hf : t.find? (fun r => decide (r.1 = k)) with
  | some r => rw [hf] at h; exact Option.noConfusion h
  | none =>
    intro hk
    obtain ⟨r, hr, hrk⟩ := List.mem_map.mp hk
    have := List.find?_eq_none.mp hf r hr
    simp [hrk] at this

theorem intern_nodup {t : Table} (k : Str) (n : Nat)
    (h : (t.map Prod.fst).Nodup) :
    ((intern t k n).1.map Prod.fst).Nodup := by
  unfold intern
  cases hl : tlookup t k with
  | some i => exact h
  | none =>
    dsimp only
    rw [List.map_append]
    rw [List.nodup_append]
    refine ⟨h, List.nodup_singleton k, ?_⟩
    intro x hx hx1
    simp only [List.map_singleton, List.mem_singleton] at hx1
    exact tlookup_none_not_mem hl (hx1 ▸ hx)

theorem catFind_none_not_mem {l : List (Str × Nat × Nat)} {c : Str}
    (h : l.find? (fun r => decide (r.1 = c)) = none) :
    c ∉ l.map (fun r => r.1) := by
  intro hk
  obtain ⟨r, hr, hrk⟩ := List.mem_map.mp hk
  have := List.find?_eq_none.mp h r hr
  simp [hrk] at this

theorem addCategory_unique (d : DB) (mid : Nat) (c : Str)
    (h : UniqueKeys d) : UniqueKeys (addCategory d mid c) := by
  unfold addCategory
  cases hf : d.methodCategories.find? (fun r => decide (r.1 = c)) with
  | some r => exact h
  | none =>
    obtain ⟨h1, h2, h3, h4, h5, h6, h7⟩ := h
    refine ⟨h1, h2, h3, h4, intern_nodup _ _ h5, ?_, h7⟩
    rw [List.map_append]
    rw [List.nodup_append]
    refine ⟨h6, List.nodup_singleton c, ?_⟩
    intro x hx hx1
    simp only [List.map_singleton, List.mem_singleton] at hx1
    exact catFind_none_not_mem hf (hx1 ▸ hx)

theorem processMethod_unique (d : DB) (r : MethodRecord)
    (h : UniqueKeys d) : UniqueKeys (processMethod d r) := by
  unfold processMethod
  cases hu : r.url with
  | none => exact h
  | some u =>
    refine foldl_preserve (fun d c => addCategory_unique d _ c) _ _ ?_
    exact ⟨h.1, h.2.1, h.2.2.1, intern_nodup u d.nextId h.2.2.2.1,
      h.2.2.2.2.1, h.2.2.2.2.2.1, h.2.2.2.2.2.2⟩

theorem authStep_unique (pid : Nat) (d : DB) (oa : Nat × Str)
    (h : UniqueKeys d) : UniqueKeys (authStep pid d oa) :=
  ⟨h.1, intern_nodup oa.2 d.nextId h.2.1, h.2.2.1, h.2.2.2.1,
   h.2.2.2.2.1, h.2.2.2.2.2.1, h.2.2.2.2.2.2⟩

theorem taskStep_unique (pid : Nat) (d : DB) (t : Str)
    (h : UniqueKeys d) : UniqueKeys (taskStep pid d t) :=
  ⟨h.1, h.2.1, intern_nodup t d.nextId h.2.2.1, h.2.2.2.1,
   h.2.2.2.2.1, h.2.2.2.2.2.1, h.2.2.2.2.2.2⟩

theorem methStep_unique (pid : Nat) (d : DB) (mu : Str)
    (h : UniqueKeys d) : UniqueKeys (methStep pid d mu) :=
  ⟨h.1, h.2.1, h.2.2.1, intern_nodup mu d.nextId h.2.2.2.1,
   h.2.2.2.2.1, h.2.2.2.2.2.1, h.2.2.2.2.2.2⟩

theorem processPaper_unique (d : DB) (r : PaperRecord)
    (h : UniqueKeys d) : UniqueKeys (processPaper d r) := by
  unfold processPaper
  cases hu : r.url with
  | none => exact h
  | some u =>
    dsimp only
    refine foldl_preserve (methStep_unique _) _ _ ?_
    refine foldl_preserve (taskStep_unique _) _ _ ?_
    refine foldl_preserve (authStep_unique _) _ _ ?_
    exact ⟨intern_nodup u d.nextId h.1, h.2.1, h.2.2.1, h.2.2.2.1,
      h.2.2.2.2.1, h.2.2.2.2.2.1, h.2.2.2.2.2.2⟩

theorem processDataset_unique (d : DB) (r : DatasetRecord)
    (h : UniqueKeys d) : UniqueKeys (processDataset d r) := by
  unfold processDataset
  cases hu : r.url with
  | none => exact h
  | some u =>
    exact ⟨h.1, h.2.1, h.2.2.1, h.2.2.2.1, h.2.2.2.2.1,
      h.2.2.2.2.2.1, intern_nodup u d.nextId h.2.2.2.2.2.2⟩

theorem loadRun_unique (d : DB) (c : Corpus) (h : UniqueKeys d) :
    UniqueKeys (loadRun d c) := by
  unfold loadRun
  refine foldl_preserve processPaper_unique _ _ ?_
  refine foldl_preserve processMethod_unique _ _ ?_
  exact foldl_preserve processDataset_unique _ _ h

theorem Grows.hasId {t t' : Table} (h : Grows t t') {i : Nat}
    (hi : HasId t i) : HasId t' i := by
  obtain ⟨r, hr, hri⟩ := hi
  exact ⟨r, h.mem hr, hri⟩

theorem Grows.hasCatId {l l' : List (Str × Nat × Nat)} (h : Grows l l')
    {i : Nat} (hi : HasCatId l i) : HasCatId l' i := by
  obtain ⟨r, hr, hri⟩ := hi
  exact ⟨r, h.mem hr, hri⟩

theorem tlookup_some_mem {t : Table} {k : Str} {i : Nat}
    (h : tlookup t k = some i) : ∃ r ∈ t, r.1 = k ∧ r.2 = i := by
  unfold tlookup at h
  cases hf : t.find? (fun r => decide (r.1 = k)) with
  | none => rw [hf] at h; exact Option.noConfusion h
  | some r =>
    rw [hf] at h
    have hmem := List.mem_of_find?_eq_some hf
    have hkey := List.find?_some hf
    simp only [decide_eq_true_eq] at hkey
    exact ⟨r, hmem, hkey, Option.some.inj h⟩

theorem intern_hasId (t : Table) (k : Str) (n : Nat) :
    HasId (intern t k n).1 (intern t k n).2.1 := by
  unfold intern
  cases hl : tlookup t k with
  | some i =>
    obtain ⟨r, hr, _, hri⟩ := tlookup_some_mem hl
    exact ⟨r, hr, hri⟩
  | none =>
    exact ⟨(k, n), List.mem_append_right t (List.mem_singleton_self _),
      Eq.refl n⟩

theorem addJunc2_mem {j : List (Nat × Nat)} {p q : Nat × Nat}
    (h : q ∈ addJunc2 j p) : q ∈ j ∨ q = p := by
  unfold addJunc2 at h
  split at h
  · exact Or.inl h
  · rcases List.mem_append.mp h with h1 | h1
    · exact Or.inl h1
    · exact Or.inr (List.mem_singleton.mp h1)

theorem addJunc3_mem {j : List (Nat × Nat × Nat)}
    {q : Nat × Nat × Nat} {pid aid ord : Nat}
    (h : q ∈ addJunc3 j pid aid ord) : q ∈ j ∨ q = (pid, aid, ord) := by
  unfold addJunc3 at h
  split at h
  · exact Or.inl h
  · rcases List.mem_append.mp h with h1 | h1
    · exact Or.inl h1
    · exact Or.inr (List.mem_singleton.mp h1)

theorem addCategory_methods (d : DB) (mid : Nat) (c : Str) :
    (addCategory d mid c).methods = d.methods := by
  unfold addCategory
  cases d.methodCategories.find? (fun r => decide (r.1 = c)) <;> rfl

theorem addCategory_refint (d : DB) (mid : Nat) (c : Str)
    (h : RefIntegrity d) (hm : HasId d.methods mid) :
    RefIntegrity (addCategory d mid c) := by
  unfold addCategory
  cases hf : d.methodCategories.find? (fun r => decide (r.1 = c)) with
  | some r =>
    refine ⟨h.1, h.2.1, h.2.2.1, ?_⟩
    intro p hp
    rcases addJunc2_mem hp with h1 | h1
    · exact h.2.2.2 p h1
    · subst h1
      exact ⟨hm, r, List.mem_of_find?_eq_some hf, Eq.refl _⟩
  | none =>
    have hg : Grows d.methodCategories
        (d.methodCategories ++
          [(c, (intern d.methodAreas (classifyArea c) d.nextId).2.2,
            (intern d.methodAreas (classifyArea c) d.nextId).2.1)]) :=
      ⟨_, Eq.refl _⟩
    refine ⟨h.1, h.2.1, h.2.2.1, ?_⟩
    intro p hp
    rcases addJunc2_mem hp with h1 | h1
    · exact ⟨(h.2.2.2 p h1).1, hg.hasCatId (h.2.2.2 p h1).2⟩
    · subst h1
      refine ⟨hm, ?_⟩
      exact ⟨_, List.mem_append_right _ (List.mem_singleton_self _),
        Eq.refl _⟩

theorem processMethod_refint (d : DB) (r : MethodRecord)
    (h : RefIntegrity d) : RefIntegrity (processMethod d r) := by
  unfold processMethod
  cases hu : r.url with
  | none => exact h
  | some u =>
    dsimp only
    have hgm : Grows d.methods (intern d.methods u d.nextId).1 :=
      intern_grows d.methods u d.nextId
    have hP : ∀ (d' : DB) (c : Str),
        (RefIntegrity d' ∧
          HasId d'.methods (intern d.methods u d.nextId).2.1) →
        (RefIntegrity (addCategory d' (intern d.methods u d.nextId).2.1 c)
          ∧ HasId (addCategory d' (intern d.methods u d.nextId).2.1
              c).methods (intern d.methods u d.nextId).2.1) := by
      intro d' c hc
      refine ⟨addCategory_refint d' _ c hc.1 hc.2, ?_⟩
      rw [addCategory_methods]
      exact hc.2
    refine (foldl_preserve hP r.categories _ ⟨?_, ?_⟩).1
    · refine ⟨?_, ?_, ?_, ?_⟩
      · exact fun q hq => (h.1 q hq).imp id id
      · exact fun q hq => (h.2.1 q hq).imp id id
      · exact fun q hq => (h.2.2.1 q hq).imp id (hgm.hasId)
      · exact fun q hq => (h.2.2.2 q hq).imp (hgm.hasId) id
    · exact intern_hasId d.methods u d.nextId

theorem authStep_refint (pid : Nat) (d : DB) (oa : Nat × Str)
    (h : RefIntegrity d ∧ HasId d.papers pid) :
    RefIntegrity (authStep pid d oa) ∧
      HasId (authStep pid d oa).papers pid := by
  have hga : Grows d.authors (intern d.authors oa.2 d.nextId).1 :=
    intern_grows d.authors oa.2 d.nextId
  refine ⟨⟨?_, ?_, ?_, ?_⟩, h.2⟩
  · intro q hq
    rcases addJunc3_mem hq with h1 | h1
    · exact ((h.1).1 q h1).imp id (hga.hasId)
    · subst h1
      exact ⟨h.2, intern_hasId d.authors oa.2 d.nextId⟩
  · exact fun q hq => ((h.1).2.1 q hq).imp id id
  · exact fun q hq => ((h.1).2.2.1 q hq).imp id id
  · exact fun q hq => ((h.1).2.2.2 q hq).imp id id

theorem taskStep_refint (pid : Nat) (d : DB) (t : Str)
    (h : RefIntegrity d ∧ HasId d.papers pid) :
    RefIntegrity (taskStep pid d t) ∧
      HasId (taskStep pid d t).papers pid := by
  have hgt : Grows d.tasks (intern d.tasks t d.nextId).1 :=
    intern_grows d.tasks t d.nextId
  refine ⟨⟨?_, ?_, ?_, ?_⟩, h.2⟩
  · exact fun q hq => ((h.1).1 q hq).imp id id
  · intro q hq
    rcases addJunc2_mem hq with h1 | h1
    · exact ((h.1).2.1 q h1).imp id (hgt.hasId)
    · subst h1
      exact ⟨h.2, intern_hasId d.tasks t d.nextId⟩
  · exact fun q hq => ((h.1).2.2.1 q hq).imp id id
  · exact fun q hq => ((h.1).2.2.2 q hq).imp id id

theorem methStep_refint (pid : Nat) (d : DB) (mu : Str)
    (h : RefIntegrity d ∧ HasId d.papers pid) :
    RefIntegrity (methStep pid d mu) ∧
      HasId (methStep pid d mu).papers pid := by
  have hgm : Grows d.methods (intern d.methods mu d.nextId).1 :=
    intern_grows d.methods mu d.nextId
  refine ⟨⟨?_, ?_, ?_, ?_⟩, h.2⟩
  · exact fun q hq => ((h.1).1 q hq).imp id id
  · exact fun q hq => ((h.1).2.1 q hq).imp id id
  · intro q hq
    rcases addJunc2_mem hq with h1 | h1
    · exact ((h.1).2.2.1 q h1).imp id (hgm.hasId)
    · subst h1
      exact ⟨h.2, intern_hasId d.methods mu d.nextId⟩
  · exact fun q hq => ((h.1).2.2.2 q hq).imp (hgm.hasId) id

theorem processPaper_refint (d : DB) (r : PaperRecord)
    (h : RefIntegrity d) : RefIntegrity (processPaper d r) := by
  unfold processPaper
  cases hu : r.url with
  | none => exact h
  | some u =>
    dsimp only
    have hgp : Grows d.papers (intern d.papers u d.nextId).1 :=
      intern_grows d.papers u d.nextId
    refine (foldl_preserve (methStep_refint _) r.methods _ ?_).1
    refine foldl_preserve (taskStep_refint _) r.tasks _ ?_
    refine foldl_preserve (authStep_refint _) r.authors.enum _ ?_
    refine ⟨⟨?_, ?_, ?_, ?_⟩, intern_hasId d.papers u d.nextId⟩
    · exact fun q hq => (h.1 q hq).imp (hgp.hasId) id
    · exact fun q hq => (h.2.1 q hq).imp (hgp.hasId) id
    · exact fun q hq => (h.2.2.1 q hq).imp (hgp.hasId) id
    · exact fun q hq => (h.2.2.2 q hq).imp id id

theorem processDataset_refint (d : DB) (r : DatasetRecord)
    (h : RefIntegrity d) : RefIntegrity (processDataset d r) := by
  unfold processDataset
  cases hu : r.url with
  | none => exact h
  | some u =>
    exact ⟨fun q hq => (h.1 q hq).imp id id,
      fun q hq => (h.2.1 q hq).imp id id,
      fun q hq => (h.2.2.1 q hq).imp id id,
      fun q hq => (h.2.2.2 q hq).imp id id⟩

theorem loadRun_refint (d : DB) (c : Corpus) (h : RefIntegrity d) :
    RefIntegrity (loadRun d c) := by
  unfold loadRun
  refine foldl_preserve processPaper_refint _ _ ?_
  refine foldl_preserve processMethod_refint _ _ ?_
  exact foldl_preserve processDataset_refint _ _ h

theorem addCategory_catStable (d : DB) (mid : Nat) (c c0 : Str)
    {row : Str × Nat × Nat} (hf : catFind d c0 = some row) :
    catFind (addCategory d mid c) c0 = some row ∧
      catCount (addCategory d mid c) c0 = catCount d c0 := by
  unfold catFind at hf ⊢
  unfold catCount addCategory
  cases hfc : d.methodCategories.find? (fun r => decide (r.1 = c)) with
  | some r => exact ⟨hf, rfl⟩
  | none =>
    have hcc0 : ¬ c = c0 := by
      intro he
      subst he
      rw [hfc] at hf
      exact Option.noConfusion hf
    constructor
    · exact find?_append_some _ hf
    · rw [List.filter_append]
      rw [show List.filter (fun r => decide (r.1 = c0))
          [(c, (intern d.methodAreas (classifyArea c) d.nextId).2.2,
            (intern d.methodAreas (classifyArea c) d.nextId).2.1)] = []
        from by simp [List.filter, hcc0]]
      rw [List.append_nil]

/-- A generic fold lemma: a projection untouched by every step is
untouched by the fold. -/
theorem foldl_field_eq {α γ : Type} {f : DB → α → DB} (g : DB → γ)
    (hf : ∀ d a, g (f d a) = g d) :
    ∀ (l : List α) (d : DB), g (l.foldl f d) = g d := by
  intro l
  induction l with
  | nil => exact fun d => rfl
  | cons a as ih =>
    intro d
    rw [List.foldl_cons, ih (f d a), hf d a]

theorem authStep_cats (pid : Nat) (d : DB) (oa : Nat × Str) :
    (authStep pid d oa).methodCategories = d.methodCategories := rfl

theorem taskStep_cats (pid : Nat) (d : DB) (t : Str) :
    (taskStep pid d t).methodCategories = d.methodCategories := rfl

theorem methStep_cats (pid : Nat) (d : DB) (mu : Str) :
    (methStep pid d mu).methodCategories = d.methodCategories := rfl

theorem processPaper_cats (d : DB) (r : PaperRecord) :
    (processPaper d r).methodCategories = d.methodCategories := by
  unfold processPaper
  cases hu : r.url with
  | none => rfl
  | some u =>
    dsimp only
    rw [foldl_field_eq DB.methodCategories (methStep_cats _) r.methods _]
    rw [foldl_field_eq DB.methodCategories (taskStep_cats _) r.tasks _]
    rw [foldl_field_eq DB.methodCategories (authStep_cats _)
      r.authors.enum _]

theorem processDataset_cats (d : DB) (r : DatasetRecord) :
    (processDataset d r).methodCategories = d.methodCategories := by
  unfold processDataset
  cases hu : r.url with
  | none => rfl
  | some u => rfl

theorem catFind_count_congr {d d' : DB} (c0 : Str)
    (he : d'.methodCategories = d.methodCategories) :
    catFind d' c0 = catFind d c0 ∧ catCount d' c0 = catCount d c0 := by
  unfold catFind catCount
  rw [he]
  exact ⟨rfl, rfl⟩

theorem processMethod_catStable (d : DB) (r : MethodRecord) (c0 : Str)
    {row : Str × Nat × Nat} {k : Nat}
    (h : catFind d c0 = some row ∧ catCount d c0 = k) :
    catFind (processMethod d r) c0 = some row ∧
      catCount (processMethod d r) c0 = k := by
  unfold processMethod
  cases hu : r.url with
  | none => exact h
  | some u =>
    dsimp only
    have hdb1 : catFind { d with
          methods := (intern d.methods u d.nextId).1,
          nextId := (intern d.methods u d.nextId).2.2 } c0 = some row ∧
        catCount { d with
          methods := (intern d.methods u d.nextId).1,
          nextId := (intern d.methods u d.nextId).2.2 } c0 = k := h
    refine foldl_preserve
      (P := fun d' => catFind d' c0 = some row ∧ catCount d' c0 = k)
      (fun d' c hc => ?_) r.categories _ hdb1
    obtain ⟨hs1, hs2⟩ :=
      addCategory_catStable d' (intern d.methods u d.nextId).2.1 c c0 hc.1
    exact ⟨hs1, hs2.trans hc.2⟩

theorem loadRun_catStable (d : DB) (c : Corpus) (c0 : Str)
    {row : Str × Nat × Nat} {k : Nat}
    (h : catFind d c0 = some row ∧ catCount d c0 = k) :
    catFind (loadRun d c) c0 = some row ∧
      catCount (loadRun d c) c0 = k := by
  unfold loadRun
  refine foldl_preserve
    (P := fun d' => catFind d' c0 = some row ∧ catCount d' c0 = k)
    (fun d' r hc => ?_) c.paperRecords _ ?_
  · obtain ⟨he1, he2⟩ := catFind_count_congr c0 (processPaper_cats d' r)
    exact ⟨he1.trans hc.1, he2.trans hc.2⟩
  refine foldl_preserve
    (P := fun d' => catFind d' c0 = some row ∧ catCount d' c0 = k)
    (fun d' r hc => processMethod_catStable d' r c0 hc)
    c.methodRecords _ ?_
  refine foldl_preserve
    (P := fun d' => catFind d' c0 = some row ∧ catCount d' c0 = k)
    (fun d' r hc => ?_) c.datasetRecords _ h
  obtain ⟨he1, he2⟩ := catFind_count_congr c0 (processDataset_cats d' r)
  exact ⟨he1.trans hc.1, he2.trans hc.2⟩

theorem intern_noop {t : Table} {k : Str} {i : Nat} (n : Nat)
    (h : tlookup t k = some i) : intern t k n = (t, i, n) := by
  unfold intern
  rw [h]

theorem intern_lookup (t : Table) (k : Str) (n : Nat) :
    tlookup (intern t k n).1 k = some (intern t k n).2.1 := by
  unfold intern
  cases hl : tlookup t k with
  | some i => exact hl
  | none =>
    dsimp only
    unfold tlookup at hl ⊢
    cases hf : t.find? (fun r => decide (r.1 = k)) with
    | some r => rw [hf] at hl; exact Option.noConfusion hl
    | none => rw [find?_append_none hf (by simp)]

/-- A fold whose every step fixes the accumulator fixes the fold. -/
theorem foldl_congr_self {α : Type} {f : DB → α → DB} {l : List α}
    {d : DB} (h : ∀ a ∈ l, f d a = d) : l.foldl f d = d := by
  induction l with
  | nil => rfl
  | cons a as ih =>
    rw [List.foldl_cons, h a (List.mem_cons_self a as)]
    exact ih (fun a ha => h a (List.mem_cons_of_mem _ ha))

theorem addJunc2_self (j : List (Nat × Nat)) (p : Nat × Nat) :
    p ∈ addJunc2 j p := by
  unfold addJunc2
  split
  · assumption
  · exact List.mem_append_right j (List.mem_singleton_self p)

theorem addJunc2_noop {j : List (Nat × Nat)} {p : Nat × Nat}
    (h : p ∈ j) : addJunc2 j p = j := by
  unfold addJunc2
  rw [if_pos h]

theorem addJunc3_noop {j : List (Nat × Nat × Nat)} {pid aid ord : Nat}
    (h : ∃ q ∈ j, q.1 = pid ∧ q.2.1 = aid) :
    addJunc3 j pid aid ord = j := by
  unfold addJunc3
  rw [if_pos]
  obtain ⟨q, hq, h1, h2⟩ := h
  exact List.any_eq_true.mpr ⟨q, hq, by simp [h1, h2]⟩

theorem addJunc3_self (j : List (Nat × Nat × Nat)) (pid aid ord : Nat) :
    ∃ q ∈ addJunc3 j pid aid ord, q.1 = pid ∧ q.2.1 = aid := by
  unfold addJunc3
  cases ha : j.any (fun r => decide (r.1 = pid ∧ r.2.1 = aid)) with
  | true =>
    rw [if_pos rfl]
    obtain ⟨q, hq, hqp⟩ := List.any_eq_true.mp ha
    simp only [decide_eq_true_eq] at hqp
    exact ⟨q, hq, hqp⟩
  | false =>
    rw [if_neg Bool.false_ne_true]
    exact ⟨(pid, aid, ord),
      List.mem_append_right j (List.mem_singleton_self _), rfl, rfl⟩

theorem addCategory_noop {d : DB} {mid : Nat} {c : Str}
    (h : CatBound mid c d) : addCategory d mid c = d := by
  obtain ⟨row, hf, hmem⟩ := h
  unfold catFind at hf
  unfold addCategory
  rw [hf]
  dsimp only
  rw [addJunc2_noop hmem]

theorem addCategory_catBound (d : DB) (mid : Nat) (c : Str) :
    CatBound mid c (addCategory d mid c) := by
  unfold addCategory
  cases hf : d.methodCategories.find? (fun r => decide (r.1 = c)) with
  | some r =>
    exact ⟨r, hf, addJunc2_self _ _⟩
  | none =>
    refine ⟨(c, (intern d.methodAreas (classifyArea c) d.nextId).2.2,
      (intern d.methodAreas (classifyArea c) d.nextId).2.1), ?_, ?_⟩
    · exact find?_append_none hf (by simp)
    · exact addJunc2_self _ _

theorem Extends.catBound {d d' : DB} (he : Extends d d') {mid : Nat}
    {c : Str} (h : CatBound mid c d) : CatBound mid c d' := by
  obtain ⟨row, hf, hmem⟩ := h
  exact ⟨row, he.2.2.2.2.2.1.find? hf,
    he.2.2.2.2.2.2.2.2.2.2.mem hmem⟩

theorem Extends.mLoaded {d d' : DB} (he : Extends d d')
    {r : MethodRecord} (h : MLoaded r d) : MLoaded r d' := by
  unfold MLoaded at h ⊢
  cases hu : r.url with
  | none => trivial
  | some u =>
    rw [hu] at h
    obtain ⟨mid, hl, hc⟩ := h
    exact ⟨mid, he.2.2.2.1.tlookup hl,
      fun c hcm => he.catBound (hc c hcm)⟩

theorem Extends.aLoaded {d d' : DB} (he : Extends d d') {pid : Nat}
    {oa : Nat × Str} (h : ALoaded pid oa d) : ALoaded pid oa d' := by
  obtain ⟨aid, hl, q, hq, hqp⟩ := h
  exact ⟨aid, he.2.1.tlookup hl, q, he.2.2.2.2.2.2.2.1.mem hq, hqp⟩

theorem Extends.tLoaded {d d' : DB} (he : Extends d d') {pid : Nat}
    {t : Str} (h : TLoaded pid t d) : TLoaded pid t d' := by
  obtain ⟨tid, hl, hmem⟩ := h
  exact ⟨tid, he.2.2.1.tlookup hl, he.2.2.2.2.2.2.2.2.1.mem hmem⟩

theorem Extends.muLoaded {d d' : DB} (he : Extends d d') {pid : Nat}
    {mu : Str} (h : MuLoaded pid mu d) : MuLoaded pid mu d' := by
  obtain ⟨mid, hl, hmem⟩ := h
  exact ⟨mid, he.2.2.2.1.tlookup hl, he.2.2.2.2.2.2.2.2.2.1.mem hmem⟩

theorem Extends.pLoaded {d d' : DB} (he : Extends d d')
    {r : PaperRecord} (h : PLoaded r d) : PLoaded r d' := by
  unfold PLoaded at h ⊢
  cases hu : r.url with
  | none => trivial
  | some u =>
    rw [hu] at h
    obtain ⟨pid, hl, ha, ht, hm⟩ := h
    exact ⟨pid, he.1.tlookup hl,
      fun oa hoa => he.aLoaded (ha oa hoa),
      fun t htm => he.tLoaded (ht t htm),
      fun mu hmu => he.muLoaded (hm mu hmu)⟩

theorem Extends.dLoaded {d d' : DB} (he : Extends d d')
    {r : DatasetRecord} (h : DLoaded r d) : DLoaded r d' := by
  unfold DLoaded at h ⊢
  cases hu : r.url with
  | none => trivial
  | some u =>
    rw [hu] at h
    obtain ⟨did, hl⟩ := h
    exact ⟨did, he.2.2.2.2.2.2.1.tlookup hl⟩

theorem processMethod_noop {d : DB} {r : MethodRecord}
    (h : MLoaded r d) : processMethod d r = d := by
  unfold processMethod
  unfold MLoaded at h
  cases hu : r.url with
  | none => rfl
  | some u =>
    rw [hu] at h
    obtain ⟨mid, hl, hc⟩ := h
    dsimp only
    rw [intern_noop d.nextId hl]
    show r.categories.foldl (fun d' c => addCategory d' mid c) d = d
    exact foldl_congr_self (fun c hcm => addCategory_noop (hc c hcm))

theorem authStep_noop {pid : Nat} {d : DB} {oa : Nat × Str}
    (h : ALoaded pid oa d) : authStep pid d oa = d := by
  obtain ⟨aid, hl, hex⟩ := h
  unfold authStep
  rw [intern_noop d.nextId hl]
  dsimp only
  rw [addJunc3_noop hex]

theorem taskStep_noop {pid : Nat} {d : DB} {t : Str}
    (h : TLoaded pid t d) : taskStep pid d t = d := by
  obtain ⟨tid, hl, hmem⟩ := h
  unfold taskStep
  rw [intern_noop d.nextId hl]
  dsimp only
  rw [addJunc2_noop hmem]

theorem methStep_noop {pid : Nat} {d : DB} {mu : Str}
    (h : MuLoaded pid mu d) : methStep pid d mu = d := by
  obtain ⟨mid, hl, hmem⟩ := h
  unfold methStep
  rw [intern_noop d.nextId hl]
  dsimp only
  rw [addJunc2_noop hmem]

theorem processPaper_noop {d : DB} {r : PaperRecord}
    (h : PLoaded r d) : processPaper d r = d := by
  unfold processPaper
  unfold PLoaded at h
  cases hu : r.url with
  | none => rfl
  | some u =>
    rw [hu] at h
    obtain ⟨pid, hl, ha, ht, hm⟩ := h
    dsimp only
    rw [intern_noop d.nextId hl]
    show (r.methods.foldl (methStep pid)
      (r.tasks.foldl (taskStep pid)
        (r.authors.enum.foldl (authStep pid) d))) = d
    rw [foldl_congr_self (fun oa hoa => authStep_noop (ha oa hoa)),
        foldl_congr_self (fun t htm => taskStep_noop (ht t htm)),
        foldl_congr_self (fun mu hmu => methStep_noop (hm mu hmu))]

theorem processDataset_noop {d : DB} {r : DatasetRecord}
    (h : DLoaded r d) : processDataset d r = d := by
  unfold processDataset
  unfold DLoaded at h
  cases hu : r.url with
  | none => rfl
  | some u =>
    rw [hu] at h
    obtain ⟨did, hl⟩ := h
    dsimp only
    rw [intern_noop d.nextId hl]

/-- A generic fold lemma: a per-element property established by the
element's own step survives to the end of the fold. -/
theorem foldl_establish {α : Type} {f : DB → α → DB}
    {Q : α → DB → Prop}
    (hest : ∀ (d : DB) (a : α), Q a (f d a))
    (hmono : ∀ {d d' : DB} (a : α), Extends d d' → Q a d → Q a d')
    (hext : ∀ (d : DB) (a : α), Extends d (f d a)) :
    ∀ (l : List α) (d : DB), ∀ a ∈ l, Q a (l.foldl f d) := by
  intro l
  induction l with
  | nil =>
    intro d a ha
    exact absurd ha (List.not_mem_nil a)
  | cons b bs ih =>
    intro d a ha
    rw [List.foldl_cons]
    rcases List.mem_cons.mp ha with h1 | h1
    · subst h1
      exact hmono a (foldl_extends hext bs (f d a)) (hest d a)
    · exact ih (f d b) a h1

theorem authStep_papers (pid : Nat) (d : DB) (oa : Nat × Str) :
    (authStep pid d oa).papers = d.papers := rfl

theorem taskStep_papers (pid : Nat) (d : DB) (t : Str) :
    (taskStep pid d t).papers = d.papers := rfl

theorem methStep_papers (pid : Nat) (d : DB) (mu : Str) :
    (methStep pid d mu).papers = d.papers := rfl

theorem authStep_aLoaded (pid : Nat) (d : DB) (oa : Nat × Str) :
    ALoaded pid oa (authStep pid d oa) := by
  unfold authStep ALoaded
  exact ⟨(intern d.authors oa.2 d.nextId).2.1,
    intern_lookup d.authors oa.2 d.nextId, addJunc3_self _ _ _ _⟩

theorem taskStep_tLoaded (pid : Nat) (d : DB) (t : Str) :
    TLoaded pid t (taskStep pid d t) := by
  unfold taskStep TLoaded
  exact ⟨(intern d.tasks t d.nextId).2.1,
    intern_lookup d.tasks t d.nextId, addJunc2_self _ _⟩

theorem methStep_muLoaded (pid : Nat) (d : DB) (mu : Str) :
    MuLoaded pid mu (methStep pid d mu) := by
  unfold methStep MuLoaded
  exact ⟨(intern d.methods mu d.nextId).2.1,
    intern_lookup d.methods mu d.nextId, addJunc2_self _ _⟩

theorem processMethod_loads (d : DB) (r : MethodRecord) :
    MLoaded r (processMethod d r) := by
  unfold processMethod MLoaded
  cases hu : r.url with
  | none => trivial
  | some u =>
    dsimp only
    refine ⟨(intern d.methods u d.nextId).2.1, ?_, ?_⟩
    · rw [foldl_field_eq DB.methods
        (fun d' c => addCategory_methods d' _ c) r.categories _]
      exact intern_lookup d.methods u d.nextId
    · exact foldl_establish
        (Q := fun c d' =>
          CatBound (intern d.methods u d.nextId).2.1 c d')
        (fun d' c => addCategory_catBound d' _ c)
        (fun c he hq => he.catBound hq)
        (fun d' c => addCategory_extends d' _ c) r.categories _

theorem processPaper_loads (d : DB) (r : PaperRecord) :
    PLoaded r (processPaper d r) := by
  unfold processPaper PLoaded
  cases hu : r.url with
  | none => trivial
  | some u =>
    dsimp only
    refine ⟨(intern d.papers u d.nextId).2.1, ?_, ?_, ?_, ?_⟩
    · rw [foldl_field_eq DB.papers (methStep_papers _) r.methods _,
          foldl_field_eq DB.papers (taskStep_papers _) r.tasks _,
          foldl_field_eq DB.papers (authStep_papers _) r.authors.enum _]
      exact intern_lookup d.papers u d.nextId
    · intro oa hoa
      have h1 := foldl_establish
        (Q := fun oa d' => ALoaded (intern d.papers u d.nextId).2.1 oa d')
        (authStep_aLoaded _) (fun oa he hq => he.aLoaded hq)
        (authStep_extends _) r.authors.enum
        { d with papers := (intern d.papers u d.nextId).1,
                 nextId := (intern d.papers u d.nextId).2.2 } oa hoa
      exact ((foldl_extends (taskStep_extends _) r.tasks _).etrans
        (foldl_extends (methStep_extends _) r.methods _)).aLoaded h1
    · intro t htm
      have h1 := foldl_establish
        (Q := fun t d' => TLoaded (intern d.papers u d.nextId).2.1 t d')
        (taskStep_tLoaded _) (fun t he hq => he.tLoaded hq)
        (taskStep_extends _) r.tasks
        (r.authors.enum.foldl (authStep (intern d.papers u d.nextId).2.1)
          { d with papers := (intern d.papers u d.nextId).1,
                   nextId := (intern d.papers u d.nextId).2.2 }) t htm
      exact (foldl_extends (methStep_extends _) r.methods _).tLoaded h1
    · intro mu hmu
      exact foldl_establish
        (Q := fun mu d' =>
          MuLoaded (intern d.papers u d.nextId).2.1 mu d')
        (methStep_muLoaded _) (fun mu he hq => he.muLoaded hq)
        (methStep_extends _) r.methods
        (r.tasks.foldl (taskStep (intern d.papers u d.nextId).2.1)
          (r.authors.enum.foldl
            (authStep (intern d.papers u d.nextId).2.1)
            { d with papers := (intern d.papers u d.nextId).1,
                     nextId := (intern d.papers u d.nextId).2.2 }))
        mu hmu

theorem processDataset_loads (d : DB) (r : DatasetRecord) :
    DLoaded r (processDataset d r) := by
  unfold processDataset DLoaded
  cases hu : r.url with
  | none => trivial
  | some u =>
    dsimp only
    exact ⟨(intern d.datasets u d.nextId).2.1,
      intern_lookup d.datasets u d.nextId⟩

theorem loadRun_loads (d : DB) (c : Corpus) :
    CorpusLoaded c (loadRun d c) := by
  unfold loadRun CorpusLoaded
  refine ⟨?_, ?_, ?_⟩
  · intro r hr
    have h1 : MLoaded r (c.methodRecords.foldl processMethod
        (c.datasetRecords.foldl processDataset d)) :=
      foldl_establish (Q := fun r d' => MLoaded r d')
        processMethod_loads (fun r he hq => he.mLoaded hq)
        processMethod_extends c.methodRecords _ r hr
    exact (foldl_extends processPaper_extends c.paperRecords _).mLoaded
      h1
  · intro r hr
    exact foldl_establish (Q := fun r d' => PLoaded r d')
      processPaper_loads (fun r he hq => he.pLoaded hq)
      processPaper_extends c.paperRecords _ r hr
  · intro r hr
    have h1 : DLoaded r (c.datasetRecords.foldl processDataset d) :=
      foldl_establish (Q := fun r d' => DLoaded r d')
        processDataset_loads (fun r he hq => he.dLoaded hq)
        processDataset_extends c.datasetRecords d r hr
    exact ((foldl_extends processMethod_extends c.methodRecords _).etrans
      (foldl_extends processPaper_extends c.paperRecords _)).dLoaded h1

theorem loadRun_noop {d : DB} {c : Corpus} (h : CorpusLoaded c d) :
    loadRun d c = d := by
  unfold loadRun
  rw [foldl_congr_self (fun r hr => processDataset_noop (h.2.2 r hr)),
      foldl_congr_self (fun r hr => processMethod_noop (h.1 r hr)),
      foldl_congr_self (fun r hr => processPaper_noop (h.2.1 r hr))]

/-- C2: once a category name is bound to an area by the first method
record that references it, every later method record referencing the
same name — across any further sequence of load runs — leaves the
existing category row (and hence its area assignment) as the first
match for that name and creates no further row with that name (the
count of rows with the name does not change). -/
theorem c2_category_first_write_wins (db : DB) (cs : List Corpus)
    (c0 : Str) (row : Str × Nat × Nat)
    (hf : catFind db c0 = some row) :
    catFind (loadRuns db cs) c0 = some row ∧
    catCount (loadRuns db cs) c0 = catCount db c0 := by
  unfold loadRuns
  exact foldl_preserve
    (P := fun d' => catFind d' c0 = some row ∧
      catCount d' c0 = catCount db c0)
    (fun d' c hc => loadRun_catStable d' c c0 hc) cs db ⟨hf, rfl⟩

/-- Witness for C2: after loading `corpusA` into an empty store,
`Transformers` is bound to row `(Transformers, 2, 1)` (area id 1 =
Natural Language Processing); loading `corpusB`, which references
`Transformers` again, leaves that binding and the row count for the
name unchanged. -/
theorem c2_category_first_write_wins_witness :
    catFind (loadRuns (loadRun emptyDB corpusA) [corpusB])
      "Transformers".data = some ("Transformers".data, 2, 1) ∧
    catCount (loadRuns (loadRun emptyDB corpusA) [corpusB])
      "Transformers".data =
      catCount (loadRun emptyDB corpusA) "Transformers".data :=
  c2_category_first_write_wins (loadRun emptyDB corpusA) [corpusB]
    "Transformers".data ("Transformers".data, 2, 1) (by decide)

/-- C3: running the load pipeline a second time against the same source
corpus and the same target store leaves the store — and hence every
table's row count — exactly as after the first run, for every store and
every corpus. -/
theorem c3_idempotent_rerun (db : DB) (c : Corpus) :
    loadRun (loadRun db c) c = loadRun db c ∧
    rowCounts (loadRun (loadRun db c) c) = rowCounts (loadRun db c) := by
  have h := loadRun_noop (loadRun_loads db c)
  exact ⟨h, congrArg rowCounts h⟩

/-- C4: a load run preserves natural-key uniqueness of every entity
table, and re-insertion of an already-seen natural key is a no-op of
the interner (it returns the table unchanged with the existing id). -/
theorem c4_natural_key_uniqueness (db : DB) (c : Corpus)
    (h : UniqueKeys db) :
    UniqueKeys (loadRun db c) ∧
    (∀ (t : Table) (k : Str) (n i : Nat), tlookup t k = some i →
      intern t k n = (t, i, n)) :=
  ⟨loadRun_unique db c h, fun _ _ n _ hl => intern_noop n hl⟩

/-- Witness for C4: loading `corpusC` into the empty store yields
unique natural keys in every entity table, and re-interning a present
key is a no-op. -/
theorem c4_natural_key_uniqueness_witness :
    UniqueKeys (loadRun emptyDB corpusC) ∧
    intern [("k".data, 5)] "k".data 9 = ([("k".data, 5)], 5, 9) :=
  ⟨(c4_natural_key_uniqueness emptyDB corpusC
      ⟨List.nodup_nil, List.nodup_nil, List.nodup_nil, List.nodup_nil,
       List.nodup_nil, List.nodup_nil, List.nodup_nil⟩).1,
   (c4_natural_key_uniqueness emptyDB corpusC
      ⟨List.nodup_nil, List.nodup_nil, List.nodup_nil, List.nodup_nil,
       List.nodup_nil, List.nodup_nil, List.nodup_nil⟩).2
     [("k".data, 5)] "k".data 9 5 (by decide)⟩

/-- C5: a load run preserves referential integrity — every junction row
references ids present in the respective entity tables — and each
single record-processing write already preserves it, so the invariant
holds at the time each junction row is written rather than being
re-established later. -/
theorem c5_referential_integrity (db : DB) (c : Corpus)
    (h : RefIntegrity db) :
    RefIntegrity (loadRun db c) ∧
    (∀ r : MethodRecord, RefIntegrity (processMethod db r)) ∧
    (∀ r : PaperRecord, RefIntegrity (processPaper db r)) ∧
    (∀ r : DatasetRecord, RefIntegrity (processDataset db r)) :=
  ⟨loadRun_refint db c h, fun r => processMethod_refint db r h,
   fun r => processPaper_refint db r h,
   fun r => processDataset_refint db r h⟩

/-- Witness for C5: the store built from `corpusC` over the empty store
satisfies referential integrity. -/
theorem c5_referential_integrity_witness :
    RefIntegrity (loadRun emptyDB corpusC) :=
  (c5_referential_integrity emptyDB corpusC
    ⟨fun q hq => absurd hq (List.not_mem_nil q),
     fun q hq => absurd hq (List.not_mem_nil q),
     fun q hq => absurd hq (List.not_mem_nil q),
     fun q hq => absurd hq (List.not_mem_nil q)⟩).1

/-- C7: a method record carrying its natural key but zero category
labels still gets its method row (upserted), adds no category links,
and is not counted as rejected; loading only such a record into an
empty store leaves the method-category junction table empty. -/
theorem c7_orphan_method (db : DB) (u nm : Str) :
    (∃ mid, tlookup (processMethod db ⟨some u, nm, []⟩).methods u =
      some mid) ∧
    (processMethod db ⟨some u, nm, []⟩).methodCategoriesRel =
      db.methodCategoriesRel ∧
    rejectedCount ⟨[⟨some u, nm, []⟩], [], []⟩ = 0 ∧
    (loadRun emptyDB ⟨[⟨some u, nm, []⟩], [], []⟩).methodCategoriesRel
      = [] := by
  refine ⟨⟨(intern db.methods u db.nextId).2.1, ?_⟩, rfl, rfl, ?_⟩
  · exact intern_lookup db.methods u db.nextId
  · rfl

end PWC
